import Mathlib

/-!
Verification of the job-market ingestion pipeline
(`src/data/fetch_api_data.py`, `src/data/postgres_db.py`,
`src/data/mongo_db.py`, `src/data/main.py`, `src/models/train_model.py`,
`src/models/predict_model.py`, `src/api/routers/data.py`).

Each Python function is shallowly embedded as an executable Lean
definition; external effects (the HTTP API, the two database servers,
exceptions raised by drivers) are made explicit parameters or oracles.
-/

set_option autoImplicit false

namespace JobMarket

/-- A raw job record as returned by the Adzuna API, restricted to the
fields the ingestion code reads.  `created` is the creation timestamp
(modelled as a `Nat`); `id` is the external id (always present in API
responses, used as the natural key by both stores). -/
structure AdzJob where
  id : Nat
  created : Nat
  company : Option String
  catTag : Option String
  catLabel : Option String
  locDisplay : Option String
  area : List String
  latitude : Option Int
  longitude : Option Int
  title : Option String
  contract_type : Option String
  contract_time : Option String
  adref : Option String
  redirect_url : Option String
  salary_min : Option Int
  salary_max : Option Int
deriving DecidableEq, Repr

/-- Build a job with only the fields relevant to fetching populated. -/
def mkJob (id created : Nat) : AdzJob :=
  { id := id, created := created, company := none, catTag := none,
    catLabel := none, locDisplay := none, area := [], latitude := none,
    longitude := none, title := none, contract_type := none,
    contract_time := none, adref := none, redirect_url := none,
    salary_min := none, salary_max := none }

/-- Result of a `fetch_jobs` run.  `requested` records the pages for
which an HTTP request was issued (one entry per `requests.get` call in
the loop), in order. -/
structure FetchRun where
  jobs : List AdzJob
  next_start_page : Nat
  requested : List Nat
deriving DecidableEq, Repr

/-- The page loop of `fetch_jobs` (fetch_api_data.py lines 40-73).
`api page` stands for the parsed `data.get("results", [])` of the HTTP
response for `page`.  Arguments mirror the Python loop state:
remaining iterations (`range(start_page, start_page + max_pages)` runs
`max_pages` times), current page, `jobs` accumulator,
`last_page_fetched`, and the request trace.  Branches:
an empty page breaks the loop after setting `last_page_fetched`;
with a truthy `newest_seen`, a page containing an item with
`created <= newest_seen` sets `early_stop`, records
`last_page_fetched = page`, skips `jobs.extend`, and then the loop
simply continues with the next page (the inner `break` only leaves the
for-job loop; there is no break of the page loop); otherwise the page's
results are appended. -/
def fetchGo (api : Nat → List AdzJob) (newest_seen : Option Nat) :
    Nat → Nat → List AdzJob → Option Nat → List Nat →
    List AdzJob × Option Nat × List Nat
  | 0, _, jobs, last, req => (jobs, last, req)
  | k+1, page, jobs, last, req =>
    let results := api page
    let req' := req ++ [page]
    if results.isEmpty then
      (jobs, some page, req')
    else
      match newest_seen with
      | some t =>
        if results.any (fun j => j.created ≤ t) then
          fetchGo api newest_seen k (page+1) jobs (some page) req'
        else
          fetchGo api newest_seen k (page+1) (jobs ++ results) (some page) req'
      | none => fetchGo api newest_seen k (page+1) (jobs ++ results) (some page) req'

/-- `fetch_jobs` (fetch_api_data.py): runs the page loop from
`start_page` for at most `max_pages` pages and computes
`next_start_page = last_page_fetched + 1`, where `last_page_fetched`
defaults to `start_page - 1` when no page was recorded. -/
def fetch_jobs (api : Nat → List AdzJob) (newest_seen : Option Nat)
    (max_pages start_page : Nat) : FetchRun :=
  let r := fetchGo api newest_seen max_pages start_page [] none []
  { jobs := r.1
    next_start_page := r.2.1.getD (start_page - 1) + 1
    requested := r.2.2 }

/-- Concrete two-page API response used to exercise the cutoff logic:
page 1 holds a job older than the cutoff 7, page 2 a newer one. -/
def apiCutoff : Nat → List AdzJob := fun p =>
  if p = 1 then [mkJob 101 5] else if p = 2 then [mkJob 102 10] else []

/-- An API that always returns an empty result list. -/
def apiNone : Nat → List AdzJob := fun _ => []

/-! ### Relational store (`postgres_db.py`) -/

/-- A row of the `Company` table (`company_id SERIAL PRIMARY KEY,
company_name TEXT UNIQUE`). -/
structure CompanyRow where
  company_id : Nat
  company_name : Option String
deriving DecidableEq, Repr

/-- A row of the `Category` table (`category_id SERIAL`, `tag TEXT
UNIQUE`, `label TEXT`). -/
structure CategoryRow where
  category_id : Nat
  tag : Option String
  label : Option String
deriving DecidableEq, Repr

/-- A row of the `Location` table (`location_id SERIAL`, `display_name
TEXT UNIQUE`, coordinates, parsed country and city). -/
structure LocationRow where
  location_id : Nat
  display_name : Option String
  latitude : Option Int
  longitude : Option Int
  country : Option String
  city : Option String
deriving DecidableEq, Repr

/-- A row of the `Job` fact table, keyed by the external id. -/
structure JobRow where
  job_id : Nat
  title : Option String
  contract_type : Option String
  contract_time : Option String
  created : Nat
  adref : Option String
  redirect_url : Option String
  salary_min : Option Int
  salary_max : Option Int
  company_id : Nat
  location_id : Nat
  category_id : Nat
deriving DecidableEq, Repr

/-- The visible state of the PostgreSQL database: the four tables the
ingestion code touches plus the next value of each SERIAL sequence.
`tablesCreated` records whether the `CREATE TABLE IF NOT EXISTS`
statements have ever been committed. -/
structure PGState where
  tablesCreated : Bool
  companies : List CompanyRow
  categories : List CategoryRow
  locations : List LocationRow
  jobs : List JobRow
  nextCompanyId : Nat
  nextCategoryId : Nat
  nextLocationId : Nat
deriving DecidableEq, Repr

/-- An empty database. -/
def pgEmpty : PGState :=
  { tablesCreated := false, companies := [], categories := [],
    locations := [], jobs := [], nextCompanyId := 1, nextCategoryId := 1,
    nextLocationId := 1 }

/-- SQL `UNIQUE` conflict test: two TEXT values conflict only when both
are non-NULL and equal (NULLs never conflict with each other). -/
def keyMatch (k : Option String) (v : Option String) : Bool :=
  k.isSome && v == k

/-- Shared shape of the three `INSERT … ON CONFLICT … DO UPDATE …
RETURNING id` statements applied to a table's row list: rewrite the
first (by uniqueness of the conflict target, only) conflicting row and
return its id; `none` reports that no row conflicts, in which case the
caller appends a fresh row. -/
def upsertGo {α : Type} (hit : α → Bool) (upd : α → α) (idOf : α → Nat) :
    List α → Option (List α × Nat)
  | [] => none
  | r :: rs =>
    if hit r then some (upd r :: rs, idOf r)
    else
      match upsertGo hit upd idOf rs with
      | some (rs', i) => some (r :: rs', i)
      | none => none

/-- `INSERT INTO Company … ON CONFLICT (company_name) DO UPDATE SET
company_name = EXCLUDED.company_name RETURNING company_id` applied to
the table contents. -/
def compUpsertGo (nm : Option String) (l : List CompanyRow) :
    Option (List CompanyRow × Nat) :=
  upsertGo (fun r => keyMatch nm r.company_name)
    (fun r => { r with company_name := nm }) (fun r => r.company_id) l

def upsertCompany (S : PGState) (nm : Option String) : PGState × Nat :=
  match compUpsertGo nm S.companies with
  | some (rows, id) => ({ S with companies := rows }, id)
  | none =>
    let id := S.nextCompanyId
    ({ S with
        companies := S.companies ++ [{ company_id := id, company_name := nm }],
        nextCompanyId := id + 1 }, id)

/-- `INSERT INTO Category … ON CONFLICT (tag) DO UPDATE SET label =
EXCLUDED.label RETURNING category_id` applied to the table contents. -/
def catUpsertGo (tag label : Option String) (l : List CategoryRow) :
    Option (List CategoryRow × Nat) :=
  upsertGo (fun r => keyMatch tag r.tag)
    (fun r => { r with label := label }) (fun r => r.category_id) l

def upsertCategory (S : PGState) (tag label : Option String) : PGState × Nat :=
  match catUpsertGo tag label S.categories with
  | some (rows, id) => ({ S with categories := rows }, id)
  | none =>
    let id := S.nextCategoryId
    ({ S with
        categories := S.categories ++
          [{ category_id := id, tag := tag, label := label }],
        nextCategoryId := id + 1 }, id)

/-- `area_list[0]` when present (postgres_db.py line 138). -/
def countryOfArea (area : List String) : Option String := area.head?

/-- `area_list[-2]` when the list has at least two entries
(postgres_db.py line 139). -/
def cityOfArea (area : List String) : Option String :=
  if area.length ≥ 2 then area[area.length - 2]? else none

/-- `INSERT INTO Location … ON CONFLICT (display_name) DO UPDATE SET
latitude = EXCLUDED.latitude RETURNING location_id` applied to the
table contents. -/
def locUpsertGo (dn : Option String) (lat : Option Int) (l : List LocationRow) :
    Option (List LocationRow × Nat) :=
  upsertGo (fun r => keyMatch dn r.display_name)
    (fun r => { r with latitude := lat }) (fun r => r.location_id) l

def upsertLocation (S : PGState) (dn : Option String)
    (lat lng : Option Int) (area : List String) : PGState × Nat :=
  match locUpsertGo dn lat S.locations with
  | some (rows, id) => ({ S with locations := rows }, id)
  | none =>
    let id := S.nextLocationId
    ({ S with
        locations := S.locations ++
          [{ location_id := id, display_name := dn, latitude := lat,
             longitude := lng, country := countryOfArea area,
             city := cityOfArea area }],
        nextLocationId := id + 1 }, id)

/-- `INSERT INTO Job … ON CONFLICT (job_id) DO NOTHING RETURNING
job_id`; the returned flag is whether `cur.fetchone()` was truthy,
i.e. whether a row was actually inserted. -/
def insertJob (S : PGState) (row : JobRow) : PGState × Bool :=
  if S.jobs.any (fun r => r.job_id == row.job_id) then (S, false)
  else ({ S with jobs := S.jobs ++ [row] }, true)

/-- The per-job body of the loop in `store_jobs_sql`: upsert the three
dimension rows, then insert the job fact row referencing their ids. -/
def processJob (S : PGState) (j : AdzJob) : PGState × Bool :=
  let c := upsertCompany S j.company
  let g := upsertCategory c.1 j.catTag j.catLabel
  let l := upsertLocation g.1 j.locDisplay j.latitude j.longitude j.area
  insertJob l.1
    { job_id := j.id, title := j.title, contract_type := j.contract_type,
      contract_time := j.contract_time, created := j.created,
      adref := j.adref, redirect_url := j.redirect_url,
      salary_min := j.salary_min, salary_max := j.salary_max,
      company_id := c.2, location_id := l.2, category_id := g.2 }

/-- The insertion loop of `store_jobs_sql`, with an exception oracle:
`failP j = true` means the driver raises while executing row `j`'s
statements.  A raise aborts the loop (`none`); otherwise the loop
returns the in-transaction state and the count of true inserts. -/
def storeLoop (failP : AdzJob → Bool) : PGState → List AdzJob → Option (PGState × Nat)
  | S, [] => some (S, 0)
  | S, j :: rest =>
    if failP j then none
    else
      let p := processJob S j
      match storeLoop failP p.1 rest with
      | some (S', n) => some (S', n + (if p.2 then 1 else 0))
      | none => none

/-- Outcome of one `store_jobs_sql` call.  `result = some n` is a
normal return of the inserted count; `result = none` means an exception
propagated to the caller.  `opened`/`closed` record whether
`psycopg2.connect` ran and whether `conn.close()` ran. -/
structure SqlRun where
  state : PGState
  result : Option Nat
  opened : Bool
  closed : Bool
deriving DecidableEq, Repr

/-- `store_jobs_sql` (postgres_db.py lines 28-186).  An empty batch
returns 0 before any connection is opened.  Otherwise the connection is
opened, tables are created, and the insertion loop runs inside the
implicit psycopg2 transaction: on success `conn.commit()` publishes the
new state and `conn.close()` runs; on an exception nothing was
committed (the persisted state stays as it was) and — the function
having no try/finally — `conn.close()` is never executed. -/
def store_jobs_sql (failP : AdzJob → Bool) (S : PGState) (L : List AdzJob) : SqlRun :=
  if L.isEmpty then
    { state := S, result := some 0, opened := false, closed := false }
  else
    match storeLoop failP { S with tablesCreated := true } L with
    | some (S', n) => { state := S', result := some n, opened := true, closed := true }
    | none => { state := S, result := none, opened := true, closed := false }

/-! ### Document store (`mongo_db.py`) -/

/-- The `jobs` collection: documents keyed by the external id (the code
ensures a unique index on `id`). -/
abbrev MongoDocs := List (Nat × AdzJob)

/-- Outcome of one `store_jobs_nosql` call, with the same reading of
`result`, `opened` and `closed` as `SqlRun`. -/
structure MongoRun where
  state : MongoDocs
  result : Option Nat
  opened : Bool
  closed : Bool
deriving DecidableEq, Repr

/-- The per-job loop of `store_jobs_nosql`: `update_one({"id": id},
{"$setOnInsert": job}, upsert=True)` leaves a matched document entirely
unchanged and reports an upsert only when the document was absent.
Each write is immediately durable (MongoDB has no enclosing
transaction here), so a raise (`failP j`) keeps the writes made so
far. -/
def mongoLoop (failP : AdzJob → Bool) : MongoDocs → Nat → List AdzJob → MongoDocs × Option Nat
  | M, n, [] => (M, some n)
  | M, n, j :: rest =>
    if failP j then (M, none)
    else if M.any (fun p => p.1 == j.id) then mongoLoop failP M n rest
    else mongoLoop failP (M ++ [(j.id, j)]) (n + 1) rest

/-- `store_jobs_nosql` (mongo_db.py lines 15-68).  `ctorFails` models
`MongoClient(...)` itself raising (then `client is None` and the
`finally` block closes nothing); `pingFails` models the
`ping`/`create_index` commands raising after the client exists.  All
error paths re-raise after logging, and the `finally` block closes the
client whenever it was created. -/
def store_jobs_nosql (ctorFails pingFails : Bool) (failP : AdzJob → Bool)
    (M : MongoDocs) (L : List AdzJob) : MongoRun :=
  if ctorFails then
    { state := M, result := none, opened := false, closed := false }
  else if pingFails then
    { state := M, result := none, opened := true, closed := true }
  else
    let r := mongoLoop failP M 0 L
    { state := r.1, result := r.2, opened := true, closed := true }

/-! ### Ingestion orchestrator (`main.py`) -/

/-- Outcome of the persistence phase of `main` (main.py lines 27-39). -/
structure MainRun where
  sqlAttempted : Bool
  mongoAttempted : Bool
  sqlState : PGState
  mongoState : MongoDocs
  ok : Bool
deriving DecidableEq, Repr

/-- The persistence phase of `main`: `store_jobs_sql(jobs)` is called
first with no surrounding try/except, so an exception there propagates
out of `main` and `store_jobs_nosql(jobs)` is never reached; a
`store_jobs_nosql` exception propagates after the relational write
already completed. -/
def mainModel (sqlFailP : AdzJob → Bool) (ctorFails pingFails : Bool)
    (mongoFailP : AdzJob → Bool) (S : PGState) (M : MongoDocs)
    (jobs : List AdzJob) : MainRun :=
  let r1 := store_jobs_sql sqlFailP S jobs
  match r1.result with
  | none =>
    { sqlAttempted := true, mongoAttempted := false, sqlState := r1.state,
      mongoState := M, ok := false }
  | some _ =>
    let r2 := store_jobs_nosql ctorFails pingFails mongoFailP M jobs
    { sqlAttempted := true, mongoAttempted := true, sqlState := r1.state,
      mongoState := r2.state, ok := r2.result.isSome }

/-- A job record with every ingestion-relevant field populated, for use
in concrete runs. -/
def fullJob (id created : Nat) : AdzJob :=
  { mkJob id created with
      company := some "ACME", catTag := some "it-jobs",
      catLabel := some "IT Jobs", locDisplay := some "Berlin, Berlin",
      area := ["Deutschland", "Berlin", "Berlin"], latitude := some 52,
      longitude := some 13, title := some "Dev" }

/-- A batch validity condition for C3: the three dimension natural keys
are present, so that the `ON CONFLICT` targets can actually conflict on
a re-run (SQL UNIQUE treats NULLs as never conflicting). -/
def validJob (j : AdzJob) : Bool :=
  j.company.isSome && j.catTag.isSome && j.locDisplay.isSome

/-- Exception oracle that raises exactly on the row with external id 2. -/
def failOnTwo : AdzJob → Bool := fun j => j.id == 2

/-- Exception oracle of a run in which no statement raises. -/
def noFail : AdzJob → Bool := fun _ => false

/-- Whether some `Company` row can conflict with an insert of `nm`. -/
def hasCompany (S : PGState) (nm : Option String) : Bool :=
  S.companies.any (fun r => keyMatch nm r.company_name)

/-- Whether some `Category` row can conflict with an insert of `tag`. -/
def hasCategory (S : PGState) (tag : Option String) : Bool :=
  S.categories.any (fun r => keyMatch tag r.tag)

/-- Whether some `Location` row can conflict with an insert of `dn`. -/
def hasLocation (S : PGState) (dn : Option String) : Bool :=
  S.locations.any (fun r => keyMatch dn r.display_name)

/-- Whether a `Job` row with this external id exists. -/
def hasJobId (S : PGState) (id : Nat) : Bool :=
  S.jobs.any (fun r => r.job_id == id)

/-- All four rows that processing `j` would touch already exist. -/
def keysPresent (S : PGState) (j : AdzJob) : Bool :=
  hasCompany S j.company && hasCategory S j.catTag
    && hasLocation S j.locDisplay && hasJobId S j.id

/-- The number of rows in each of the four tables. -/
def rowCounts (S : PGState) : Nat × Nat × Nat × Nat :=
  (S.companies.length, S.categories.length, S.locations.length, S.jobs.length)

/-! ### Feature preparation for prediction (`predict_model.py`) -/

/-- A pandas cell as `prepare_features` sees it: a number, a string, or
a missing value (NaN). -/
inductive Cell
  | num (n : Int)
  | str (s : String)
  | null
deriving DecidableEq, Repr

/-- A single-row dataframe: the columns in order with their cell. -/
abbrev Row := List (String × Cell)

/-- `col in X.columns`. -/
def hasCol (X : Row) (c : String) : Bool := X.any (fun p => p.1 == c)

/-- `X[col]` for a single row (first occurrence of the column). -/
def lookupCol (X : Row) (c : String) : Option Cell :=
  (X.find? (fun p => p.1 == c)).map (fun p => p.2)

/-- Python `str(x)` on the cell shapes occurring here
(`str(nan) = 'nan'`). -/
def cellStr : Cell → String
  | .num n => toString n
  | .str s => s
  | .null => "nan"

/-- `X[col] = value`: pandas assignment replaces an existing column in
place and otherwise appends it. -/
def setCol (X : Row) (c : String) (v : Cell) : Row :=
  if hasCol X c then
    X.map (fun p => if p.1 == c then (p.1, v) else p)
  else X ++ [(c, v)]

/-- The fields of the persisted `salary_model.pkl` bundle that
`prepare_features` reads: the training-time feature column order, the
title label-encoder's classes (in encoder order), and the
training-split fill values. -/
structure ModelData where
  feature_columns : List String
  classes : List String
  median_values : List (String × Int)
  mode_values : List (String × String)
deriving DecidableEq, Repr

/-- `X[col] = X[col].fillna(val)` on a single row. -/
def fillCol (X : Row) (c : String) (v : Cell) : Row :=
  X.map (fun p =>
    if p.1 == c then (p.1, if p.2 = Cell.null then v else p.2) else p)

/-- The two fill loops of `prepare_features` (predict_model.py lines
85-90): each saved fill value is applied only when its column is
present in the row. -/
def fillStep (md : ModelData) (X : Row) : Row :=
  let X1 := md.median_values.foldl
    (fun X p => if hasCol X p.1 then fillCol X p.1 (.num p.2) else X) X
  md.mode_values.foldl
    (fun X p => if hasCol X p.1 then fillCol X p.1 (.str p.2) else X) X1

/-- The fixed column list passed to `pd.get_dummies`. -/
def cat_cols : List String := ["contract_type", "contract_time", "city", "country"]

/-- `pd.get_dummies` on one column of a single row: drop the column and
append the indicator column `"<col>_<value>"` with value 1 (a NaN
yields no indicator); a missing column raises KeyError (`none`). -/
def dummyCol (X : Row) (c : String) : Option Row :=
  match lookupCol X c with
  | none => none
  | some Cell.null => some (X.filter (fun p => !(p.1 == c)))
  | some v =>
    some (X.filter (fun p => !(p.1 == c)) ++ [(c ++ "_" ++ cellStr v, Cell.num 1)])

/-- `pd.get_dummies(X, columns=cat_cols)` for a single row. -/
def dummiesStep (X : Row) : Option Row :=
  cat_cols.foldl (fun acc c => acc.bind (fun X => dummyCol X c)) (some X)

/-- Title encoding (predict_model.py lines 97-101): encode `str(title)`
by its index among the saved classes, or the sentinel -1 when absent;
assign `title_encoded`, then drop `title`.  `none` models the KeyError
on a row with no title column. -/
def titleStep (md : ModelData) (X : Row) : Option Row :=
  match lookupCol X "title" with
  | none => none
  | some v =>
    let enc : Int :=
      if cellStr v ∈ md.classes then ((md.classes.indexOf (cellStr v) : Nat) : Int)
      else -1
    some ((setCol X "title_encoded" (Cell.num enc)).filter
      (fun p => !(p.1 == "title")))

/-- The alignment loop (predict_model.py lines 104-107): assign a zero
column for every saved feature column absent from the row, then select
exactly the saved columns in their saved order. -/
def alignStep (md : ModelData) (X : Row) : Row :=
  let X' := md.feature_columns.foldl
    (fun X c => if hasCol X c then X else X ++ [(c, Cell.num 0)]) X
  md.feature_columns.map (fun c => (c, (lookupCol X' c).getD (Cell.num 0)))

/-- `prepare_features` (predict_model.py lines 80-108): fill from the
saved values, one-hot encode the four categorical columns, encode the
title, then align to the saved column order. -/
def prepare_features (X : Row) (md : ModelData) : Option Row :=
  (dummiesStep (fillStep md X)).bind
    (fun X2 => (titleStep md X2).map (fun X3 => alignStep md X3))

/-- A concrete persisted bundle for exercising `prepare_features`. -/
def mdW : ModelData :=
  { feature_columns := ["has_cloud", "title_encoded", "city_Berlin"],
    classes := ["dev"], median_values := [], mode_values := [] }

/-- A concrete inference row as `predict_salary` builds it (restricted
to the columns that matter here), with a title unknown to `mdW`. -/
def rowW : Row :=
  [("title", .str "boss"), ("contract_type", .str "permanent"),
   ("contract_time", .str "full_time"), ("city", .str "Berlin"),
   ("country", .str "de")]

/-- `rowW` after the fill and one-hot steps. -/
def rowWdummies : Row :=
  [("title", .str "boss"), ("contract_type_permanent", .num 1),
   ("contract_time_full_time", .num 1), ("city_Berlin", .num 1),
   ("country_de", .num 1)]

/-- `rowWdummies` after the title-encoding step. -/
def rowWencoded : Row :=
  [("contract_type_permanent", .num 1), ("contract_time_full_time", .num 1),
   ("city_Berlin", .num 1), ("country_de", .num 1),
   ("title_encoded", .num (-1))]

/-! ### Years-of-experience extraction (`extract_years`) -/

/-- The regex class `\d` (ASCII decimal digits). -/
def isDigitChar (c : Char) : Bool :=
  c = '0' || c = '1' || c = '2' || c = '3' || c = '4'
    || c = '5' || c = '6' || c = '7' || c = '8' || c = '9'

/-- The regex class `\s` (ASCII whitespace: TAB, LF, VT, FF, CR,
space). -/
def wsChar (c : Char) : Bool :=
  c = '\t' || c = '\n' || c = Char.ofNat 11 || c = Char.ofNat 12
    || c = '\r' || c = ' '

/-- `int(...)` of a digit run (decimal). -/
def digitsToNat (ds : List Char) : Nat :=
  ds.foldl (fun n c => n * 10 + (c.toNat - 48)) 0

/-- `\+?\s*(?:years?|jahr)` matched at the front of the remaining
text.  Only the stems `year`/`jahr` need to be present: `years?` is
satisfied by its mandatory part, and the alternatives `years`, `jahre`
are extensions of the stems. -/
def yearCont (l : List Char) : Bool :=
  let l2 := (if l.head? = some '+' then l.tail else l).dropWhile wsChar
  l2.take 4 = "year".toList || l2.take 4 = "jahr".toList

/-- The captures of `re.findall(r'(\d+)\+?\s*(?:years?|jahr)', text)`,
scanning with explicit fuel (any fuel at least the text length gives
the full scan).  Each maximal digit run whose following text matches
`\+?\s*(?:years?|jahr)` contributes its value: the engine's leftmost
non-overlapping scan finds exactly these, since `(\d+)` can only
complete a match by consuming a digit run to its end (a shorter
backtrack leaves a digit where `\+?\s*(?:years?|jahr)` must match) and
the consumed match text beyond the run contains no digit, so the scan
resumes equivalently right after the run. -/
def yearScan : Nat → List Char → List Nat
  | 0, _ => []
  | _, [] => []
  | fuel+1, c :: cs =>
    if isDigitChar c then
      (if yearCont (cs.dropWhile isDigitChar) then
        [digitsToNat (c :: cs.takeWhile isDigitChar)]
      else []) ++ yearScan fuel (cs.dropWhile isDigitChar)
    else yearScan fuel cs

/-- All captures of the regex over a text. -/
def yearMatches (cs : List Char) : List Nat := yearScan cs.length cs

/-- `extract_years` (train_model.py lines 109-113 and predict_model.py
lines 62-66): 0 for a missing (NaN) text, else the maximum capture of
the regex over the lower-cased text, defaulting to 0 when there is no
match. -/
def extract_years (text : Option String) : Nat :=
  match text with
  | none => 0
  | some s => (yearMatches (s.toList.map Char.toLower)).foldr max 0

/-- Declarative reading of one `"<N>+ years" / "<N> jahre"` occurrence:
a maximal digit run of value `n` (nothing but a non-digit or the text
start on its left) followed by an optional `+`, optional whitespace,
and the stem `year` or `jahr`. -/
def isYearPattern (cs : List Char) (n : Nat) : Prop :=
  ∃ pre ds post : List Char,
    cs = pre ++ ds ++ post
    ∧ ds ≠ []
    ∧ (∀ c ∈ ds, isDigitChar c = true)
    ∧ (∀ c, pre.getLast? = some c → isDigitChar c = false)
    ∧ yearCont post = true
    ∧ n = digitsToNat ds

/-! ### Query endpoint column validation (`api/routers/data.py`) -/

/-- The relational part of the allow-list (data.py lines 38-39). -/
def sql_columns : List String :=
  ["title", "contract_type", "contract_time", "created_at", "ref_number",
   "redirect_url", "salary_is_predicted", "company_name", "city"]

/-- The document part of the allow-list (data.py line 40). -/
def mongo_columns : List String := ["description"]

/-- `existing_columns = sql_columns + mongo_columns`. -/
def existing_columns : List String := sql_columns ++ mongo_columns

/-- `[col for col in columns if col not in existing_columns]`. -/
def missing_columns (cols : List String) : List String :=
  cols.filter (fun c => !(existing_columns.contains c))

/-- Outcome of the validation at the top of `get_jobs`. -/
inductive GetJobsCheck
  | rejected (status : Nat) (invalid : List String)
  | accepted
deriving DecidableEq, Repr

/-- The validation of `get_jobs` (data.py lines 36-44): when any
requested column is unknown, raise `HTTPException(400, ...)` naming
the missing columns; otherwise fall through to the queries. -/
def get_jobs_validate (cols : List String) : GetJobsCheck :=
  if (missing_columns cols).isEmpty then GetJobsCheck.accepted
  else GetJobsCheck.rejected 400 (missing_columns cols)

end JobMarket

namespace JobMarket

/-- The second component of `fetchGo` (last page and request trace)
does not depend on the jobs accumulator. -/
theorem fetchGo_snd_indep (api : Nat → List AdzJob) (ns : Option Nat) :
    ∀ k page jobs jobs' last req,
      (fetchGo api ns k page jobs last req).2
        = (fetchGo api ns k page jobs' last req).2 := by
  intro k
  induction k with
  | zero => intro page jobs jobs' last req; rfl
  | succ k ih =>
    intro page jobs jobs' last req
    simp only [fetchGo]
    by_cases he : (api page).isEmpty
    · simp [he]
    · simp only [he, if_false]
      cases ns with
      | none => exact ih _ _ _ _ _
      | some t =>
        by_cases hs : (api page).any (fun j => j.created ≤ t)
        · simp only [hs, if_true]; exact ih _ _ _ _ _
        · simp only [hs, if_false]; exact ih _ _ _ _ _

/-- Shifting a `List.range` under `map`: used to peel one page off the
front of the requested-page trace. -/
theorem range_map_shift (page r : Nat) :
    (List.range (r+1)).map (page + ·) = page :: (List.range r).map (page + 1 + ·) := by
  have hf : ((fun x => page + x) ∘ Nat.succ) = (fun x => page + 1 + x) := by
    funext x
    simp only [Function.comp_apply]
    omega
  rw [List.range_succ_eq_map]
  simp only [List.map_cons, List.map_map, Nat.add_zero, hf]

/-- Loop invariant for `fetchGo`: either no iteration ran (`k = 0`) and
the state is returned unchanged, or some `1 ≤ r ≤ k` consecutive pages
`page, page+1, …, page+r-1` were requested, the trace grew by exactly
those pages, and `last_page_fetched` ends at the last requested page. -/
theorem fetchGo_pages (api : Nat → List AdzJob) (ns : Option Nat) :
    ∀ k page jobs last req,
      (k = 0 ∧ fetchGo api ns k page jobs last req = (jobs, last, req)) ∨
      (∃ r, 1 ≤ r ∧ r ≤ k ∧
        (fetchGo api ns k page jobs last req).2.1 = some (page + r - 1) ∧
        (fetchGo api ns k page jobs last req).2.2
          = req ++ (List.range r).map (page + ·)) := by
  intro k
  induction k with
  | zero => intro page jobs last req; exact Or.inl ⟨rfl, rfl⟩
  | succ k ih =>
    intro page jobs last req
    refine Or.inr ?_
    by_cases he : (api page).isEmpty
    · have heq : fetchGo api ns (k+1) page jobs last req
          = (jobs, some page, req ++ [page]) := by
        simp [fetchGo, he]
      refine ⟨1, le_refl 1, Nat.one_le_iff_ne_zero.mpr (Nat.succ_ne_zero k), ?_, ?_⟩
      · rw [heq]; simp
      · rw [heq]; simp [List.range_succ]
    · have step : ∃ J', fetchGo api ns (k+1) page jobs last req
          = fetchGo api ns k (page+1) J' (some page) (req ++ [page]) := by
        cases ns with
        | none => exact ⟨jobs ++ api page, by simp [fetchGo, he]⟩
        | some t =>
          by_cases hs : (api page).any (fun j => j.created ≤ t)
          · exact ⟨jobs, by simp [fetchGo, he, hs]⟩
          · exact ⟨jobs ++ api page, by simp [fetchGo, he, hs]⟩
      obtain ⟨J', heq⟩ := step
      rcases ih (page+1) J' (some page) (req ++ [page]) with ⟨hk0, hrec⟩ | ⟨r, hr1, hrk, hlast, hreq⟩
      · refine ⟨1, le_refl 1, Nat.one_le_iff_ne_zero.mpr (Nat.succ_ne_zero k), ?_, ?_⟩
        · rw [heq, hrec]; simp
        · rw [heq, hrec]; simp [List.range_succ]
      · refine ⟨r + 1, Nat.le_add_left 1 r, Nat.succ_le_succ hrk, ?_, ?_⟩
        · rw [heq, hlast]
          congr 1
          omega
        · rw [heq, hreq, range_map_shift]
          simp

/-- C1: with cutoff `T = 7`, page 1 returning a job created at `5 ≤ 7`
and page 2 a job created at `10 > 7`, the run still issues the HTTP
request for page 2 and even appends page 2's records: the early-stop
only skips the cutoff page's records, it does not stop the multi-page
fetch (the `break` in the source leaves the inner for-job loop only,
while the page loop continues). -/
theorem fetch_jobs_cutoff_keeps_fetching :
    (fetch_jobs apiCutoff (some 7) 2 1).requested = [1, 2]
    ∧ (fetch_jobs apiCutoff (some 7) 2 1).jobs = [mkJob 102 10]
    ∧ (fetch_jobs apiCutoff (some 7) 2 1).next_start_page = 3 := by
  decide

/-- C2: for every run with `start_page ≥ 1`, the returned
`next_start_page` equals the last-attempted page plus one (defaulting
to `start_page - 1` when no page was attempted, i.e. `max_pages = 0`),
and is never below the `start_page` the run began with. -/
theorem fetch_jobs_next_start_page (api : Nat → List AdzJob) (ns : Option Nat)
    (max_pages start_page : Nat) (h : 1 ≤ start_page) :
    (fetch_jobs api ns max_pages start_page).next_start_page
      = (fetch_jobs api ns max_pages start_page).requested.getLast?.getD (start_page - 1) + 1
    ∧ start_page ≤ (fetch_jobs api ns max_pages start_page).next_start_page := by
  have hmain := fetchGo_pages api ns max_pages start_page [] none []
  simp only [fetch_jobs]
  rcases hmain with ⟨_, hrec⟩ | ⟨r, hr1, _, hlast, hreq⟩
  · rw [hrec]
    refine ⟨rfl, ?_⟩
    simp only [Option.getD_none]
    omega
  · obtain ⟨m, rfl⟩ : ∃ m, r = m + 1 := ⟨r - 1, by omega⟩
    rw [hlast, hreq]
    have hlast' : (([] : List Nat) ++ (List.range (m+1)).map (start_page + ·)).getLast?
        = some (start_page + m) := by
      rw [List.nil_append, List.range_succ, List.map_append]
      simp
    rw [hlast']
    simp only [Option.getD_some]
    constructor
    · omega
    · omega

/-- Witness for `fetch_jobs_next_start_page` at a concrete input. -/
theorem fetch_jobs_next_witness :
    1 ≤ 3
    ∧ ((fetch_jobs apiNone none 2 3).next_start_page
        = (fetch_jobs apiNone none 2 3).requested.getLast?.getD (3 - 1) + 1
      ∧ 3 ≤ (fetch_jobs apiNone none 2 3).next_start_page) :=
  ⟨by decide, fetch_jobs_next_start_page apiNone none 2 3 (by decide)⟩

/-- C10: calling the relational store with an empty batch returns 0
immediately: no connection is opened, no close happens, and the
database state — in particular whether the tables exist — is exactly
unchanged. -/
theorem store_jobs_sql_empty (failP : AdzJob → Bool) (S : PGState) :
    store_jobs_sql failP S []
      = { state := S, result := some 0, opened := false, closed := false }
    ∧ (store_jobs_sql failP S []).opened = false
    ∧ (store_jobs_sql failP S []).state.tablesCreated = S.tablesCreated :=
  ⟨rfl, rfl, rfl⟩

/-- C5 counterexample: a relational store call in which the first row's
statements raise opens the connection and exits (by propagating the
exception) without ever closing it — there is no try/finally around
the unit of work in `store_jobs_sql`. -/
theorem sql_connection_leak :
    (store_jobs_sql (fun _ => true) pgEmpty [fullJob 1 5]).opened = true
    ∧ (store_jobs_sql (fun _ => true) pgEmpty [fullJob 1 5]).closed = false := by
  decide

/-- C5 amended: the document store closes its client on every exit path
on which it was created, but the relational store closes its connection
only on the success path (and the empty-batch path opens nothing). -/
theorem connection_release (c p : Bool) (f g : AdzJob → Bool)
    (M : MongoDocs) (S : PGState) (L L' : List AdzJob) :
    (store_jobs_nosql c p f M L).closed = (store_jobs_nosql c p f M L).opened
    ∧ (store_jobs_sql g S L').closed
        = ((store_jobs_sql g S L').opened && (store_jobs_sql g S L').result.isSome) := by
  constructor
  · by_cases hc : c <;> by_cases hp : p <;> simp [store_jobs_nosql, hc, hp]
  · by_cases hL : L'.isEmpty
    · simp [store_jobs_sql, hL]
    · cases h : storeLoop g { S with tablesCreated := true } L' with
      | none => simp [store_jobs_sql, hL, h]
      | some v => simp [store_jobs_sql, hL, h]

/-- C4 counterexample: when the relational write raises, `main` never
reaches the document-store write (`store_jobs_nosql` is not attempted),
so a failure in one store does block the write to the other. -/
theorem sql_failure_blocks_mongo :
    (store_jobs_sql (fun _ => true) pgEmpty [fullJob 1 5]).result = none
    ∧ (mainModel (fun _ => true) false false (fun _ => false)
        pgEmpty [] [fullJob 1 5]).mongoAttempted = false := by
  decide

/-- C4 amended: the orchestrator writes the relational store first and
the document store second; the document write is attempted exactly when
the relational write returned normally, and the relational result is
kept whatever the document store then does (so a document-store failure
cannot block the relational write, but a relational failure aborts the
run before the document write). -/
theorem main_persistence_order (sf : AdzJob → Bool) (c p : Bool)
    (mf : AdzJob → Bool) (S : PGState) (M : MongoDocs) (jobs : List AdzJob) :
    (mainModel sf c p mf S M jobs).sqlAttempted = true
    ∧ (mainModel sf c p mf S M jobs).mongoAttempted
        = (store_jobs_sql sf S jobs).result.isSome
    ∧ (mainModel sf c p mf S M jobs).sqlState = (store_jobs_sql sf S jobs).state
    ∧ (mainModel sf c p mf S M jobs).mongoState
        = (if (store_jobs_sql sf S jobs).result.isSome
           then (store_jobs_nosql c p mf M jobs).state else M) := by
  cases h : (store_jobs_sql sf S jobs).result with
  | none => simp [mainModel, h]
  | some n => simp [mainModel, h]

/-- Any row raising anywhere in the batch makes the insertion loop of
`store_jobs_sql` abort with an exception. -/
theorem storeLoop_fail (failP : AdzJob → Bool) :
    ∀ L : List AdzJob, ∀ S : PGState, L.any failP = true →
      storeLoop failP S L = none := by
  intro L
  induction L with
  | nil => intro S h; simp at h
  | cons j rest ih =>
    intro S h
    by_cases hj : failP j
    · simp [storeLoop, hj]
    · have hr : rest.any failP = true := by
        simpa [List.any_cons, hj] using h
      simp [storeLoop, hj, ih _ hr]

/-- C6 counterexample: with a batch of three rows whose middle row
raises, `store_jobs_sql` does not process the remaining rows and does
not return a count — the exception propagates and, the commit never
being reached, not even the first (good) row is persisted. -/
theorem bad_row_aborts_batch :
    (store_jobs_sql failOnTwo pgEmpty
        [fullJob 1 5, fullJob 2 6, fullJob 3 7]).result = none
    ∧ (store_jobs_sql failOnTwo pgEmpty
        [fullJob 1 5, fullJob 2 6, fullJob 3 7]).state = pgEmpty := by
  decide

/-- C6 amended: an error raised while processing any single row errors
the whole batch: `store_jobs_sql` returns no count (the exception
propagates) and no row of the batch is committed — the persisted state
is exactly the prior state. -/
theorem bad_row_aborts_batch_forall (failP : AdzJob → Bool) (S : PGState)
    (L : List AdzJob) (h : L.any failP = true) :
    (store_jobs_sql failP S L).result = none
    ∧ (store_jobs_sql failP S L).state = S := by
  have hne : L.isEmpty = false := by
    cases L with
    | nil => simp at h
    | cons j rest => rfl
  constructor
  · simp [store_jobs_sql, hne, storeLoop_fail failP L _ h]
  · simp [store_jobs_sql, hne, storeLoop_fail failP L _ h]

/-- Witness for `bad_row_aborts_batch_forall` at a concrete input. -/
theorem bad_row_aborts_witness :
    ([fullJob 2 6].any failOnTwo = true)
    ∧ ((store_jobs_sql failOnTwo pgEmpty [fullJob 2 6]).result = none
       ∧ (store_jobs_sql failOnTwo pgEmpty [fullJob 2 6]).state = pgEmpty) :=
  ⟨by decide, bad_row_aborts_batch_forall failOnTwo pgEmpty [fullJob 2 6] (by decide)⟩

/-! ### Idempotence of the dual-store upserts (C3) -/

/-- A successful `keyMatch` forces the row value to equal the probed
key (and the key to be non-NULL). -/
theorem keyMatch_eq {nm v : Option String} (h : keyMatch nm v = true) :
    v = nm ∧ nm.isSome = true := by
  unfold keyMatch at h
  rw [Bool.and_eq_true] at h
  exact ⟨eq_of_beq h.2, h.1⟩

/-- A non-NULL key conflicts with itself. -/
theorem keyMatch_self {nm : Option String} (h : nm.isSome = true) :
    keyMatch nm nm = true := by
  simp [keyMatch, h]

section UpsertGo

variable {α : Type} (hit : α → Bool) (upd : α → α) (idOf : α → Nat)

/-- The upsert helper finds a conflict exactly when some row matches. -/
theorem upsertGo_isSome :
    ∀ l : List α, (upsertGo hit upd idOf l).isSome = l.any hit := by
  intro l
  induction l with
  | nil => rfl
  | cons r rs ih =>
    by_cases hr : hit r
    · simp [upsertGo, hr]
    · cases hrec : upsertGo hit upd idOf rs with
      | none =>
        rw [hrec] at ih
        simp [upsertGo, hr, hrec, ← ih]
      | some v =>
        obtain ⟨rs', i⟩ := v
        rw [hrec] at ih
        simp [upsertGo, hr, hrec, ← ih]

/-- A conflicting upsert rewrites exactly one row in place: the row
count is unchanged and any predicate invariant under the rewrite of a
conflicting row is preserved rowwise. -/
theorem upsertGo_some_shape :
    ∀ l rows : List α, ∀ i, upsertGo hit upd idOf l = some (rows, i) →
      rows.length = l.length
      ∧ ∀ p : α → Bool, (∀ r, hit r = true → p (upd r) = p r) →
          rows.any p = l.any p := by
  intro l
  induction l with
  | nil => intro rows i h; simp [upsertGo] at h
  | cons r rs ih =>
    intro rows i h
    by_cases hr : hit r
    · rw [upsertGo, if_pos hr] at h
      simp only [Option.some.injEq, Prod.mk.injEq] at h
      obtain ⟨h1, _⟩ := h
      subst h1
      refine ⟨by simp, ?_⟩
      intro p hp
      simp [List.any_cons, hp r hr]
    · rw [upsertGo, if_neg hr] at h
      cases hrec : upsertGo hit upd idOf rs with
      | none => rw [hrec] at h; simp at h
      | some v =>
        obtain ⟨rs', i'⟩ := v
        rw [hrec] at h
        simp only [Option.some.injEq, Prod.mk.injEq] at h
        obtain ⟨h1, _⟩ := h
        subst h1
        obtain ⟨hlen, hany⟩ := ih rs' i' hrec
        refine ⟨by simp [hlen], ?_⟩
        intro p hp
        simp [List.any_cons, hany p hp]

/-- When the rewrite fixes every matching row, a conflicting upsert
leaves the table literally unchanged. -/
theorem upsertGo_some_eq (hupd : ∀ r, hit r = true → upd r = r) :
    ∀ l rows : List α, ∀ i, upsertGo hit upd idOf l = some (rows, i) →
      rows = l := by
  intro l
  induction l with
  | nil => intro rows i h; simp [upsertGo] at h
  | cons r rs ih =>
    intro rows i h
    by_cases hr : hit r
    · rw [upsertGo, if_pos hr] at h
      simp only [Option.some.injEq, Prod.mk.injEq] at h
      obtain ⟨h1, _⟩ := h
      rw [← h1, hupd r hr]
    · rw [upsertGo, if_neg hr] at h
      cases hrec : upsertGo hit upd idOf rs with
      | none => rw [hrec] at h; simp at h
      | some v =>
        obtain ⟨rs', i'⟩ := v
        rw [hrec] at h
        simp only [Option.some.injEq, Prod.mk.injEq] at h
        obtain ⟨h1, _⟩ := h
        rw [← h1, ih rs' i' hrec]

end UpsertGo

/-- Predicate-transport between states with equal `companies`. -/
theorem hasCompany_ext {S T : PGState} (h : T.companies = S.companies)
    (k : Option String) : hasCompany T k = hasCompany S k := by
  simp [hasCompany, h]

/-- Predicate-transport between states with equal `categories`. -/
theorem hasCategory_ext {S T : PGState} (h : T.categories = S.categories)
    (k : Option String) : hasCategory T k = hasCategory S k := by
  simp [hasCategory, h]

/-- Predicate-transport between states with equal `locations`. -/
theorem hasLocation_ext {S T : PGState} (h : T.locations = S.locations)
    (k : Option String) : hasLocation T k = hasLocation S k := by
  simp [hasLocation, h]

/-- Predicate-transport between states with equal `jobs`. -/
theorem hasJobId_ext {S T : PGState} (h : T.jobs = S.jobs)
    (k : Nat) : hasJobId T k = hasJobId S k := by
  simp [hasJobId, h]

/-- The company upsert touches only the `Company` table. -/
theorem upsertCompany_frame (S : PGState) (nm : Option String) :
    (upsertCompany S nm).1.categories = S.categories
    ∧ (upsertCompany S nm).1.locations = S.locations
    ∧ (upsertCompany S nm).1.jobs = S.jobs := by
  cases hrec : compUpsertGo nm S.companies with
  | none => simp [upsertCompany, hrec]
  | some v =>
    obtain ⟨rows, i⟩ := v
    simp [upsertCompany, hrec]

/-- On conflict the company table is literally unchanged (`DO UPDATE
SET company_name = EXCLUDED.company_name` writes back the value the
conflicting row already carries), so the whole state is unchanged. -/
theorem upsertCompany_absorbed (S : PGState) (nm : Option String)
    (h : hasCompany S nm = true) : (upsertCompany S nm).1 = S := by
  have hs : (compUpsertGo nm S.companies).isSome = true := by
    rw [compUpsertGo, upsertGo_isSome]
    exact h
  cases hrec : compUpsertGo nm S.companies with
  | none => rw [hrec] at hs; simp at hs
  | some v =>
    obtain ⟨rows, i⟩ := v
    have heq : rows = S.companies := by
      refine upsertGo_some_eq _ _ _ ?_ S.companies rows i hrec
      intro r hr
      obtain ⟨hv, _⟩ := keyMatch_eq hr
      cases r
      simp_all
    simp [upsertCompany, hrec, heq]

/-- Keys present in the company table survive the company upsert. -/
theorem upsertCompany_mono (S : PGState) (nm k : Option String)
    (h : hasCompany S k = true) : hasCompany (upsertCompany S nm).1 k = true := by
  cases hrec : compUpsertGo nm S.companies with
  | none =>
    simp only [upsertCompany, hrec, hasCompany, List.any_append] at h ⊢
    simp [h]
  | some v =>
    obtain ⟨rows, i⟩ := v
    have hshape := upsertGo_some_shape _ _ _ S.companies rows i hrec
    have hany := hshape.2 (fun r => keyMatch k r.company_name)
      (fun r hr => by obtain ⟨hv, _⟩ := keyMatch_eq hr; simp [hv])
    simp only [upsertCompany, hrec, hasCompany] at h ⊢
    rw [hany]
    exact h

/-- After the company upsert, the probed (non-NULL) key is present. -/
theorem upsertCompany_self (S : PGState) (nm : Option String)
    (h : nm.isSome = true) : hasCompany (upsertCompany S nm).1 nm = true := by
  cases hrec : compUpsertGo nm S.companies with
  | none =>
    simp only [upsertCompany, hrec, hasCompany, List.any_append]
    simp [keyMatch_self h]
  | some v =>
    obtain ⟨rows, i⟩ := v
    have h1 : (compUpsertGo nm S.companies).isSome = hasCompany S nm := by
      rw [compUpsertGo, upsertGo_isSome]
      rfl
    have hs : hasCompany S nm = true := by
      rw [← h1, hrec]
      rfl
    exact upsertCompany_mono S nm nm hs

/-- The category upsert touches only the `Category` table. -/
theorem upsertCategory_frame (S : PGState) (tag lab : Option String) :
    (upsertCategory S tag lab).1.companies = S.companies
    ∧ (upsertCategory S tag lab).1.locations = S.locations
    ∧ (upsertCategory S tag lab).1.jobs = S.jobs := by
  cases hrec : catUpsertGo tag lab S.categories with
  | none => simp [upsertCategory, hrec]
  | some v =>
    obtain ⟨rows, i⟩ := v
    simp [upsertCategory, hrec]

/-- On conflict the category upsert only rewrites the conflicting
row's `label`: the row count and the set of reachable tags are
unchanged. -/
theorem upsertCategory_absorbed (S : PGState) (tag lab : Option String)
    (h : hasCategory S tag = true) :
    (upsertCategory S tag lab).1.categories.length = S.categories.length
    ∧ ∀ k, hasCategory (upsertCategory S tag lab).1 k = hasCategory S k := by
  have h1 : (catUpsertGo tag lab S.categories).isSome = hasCategory S tag := by
    rw [catUpsertGo, upsertGo_isSome]
    rfl
  cases hrec : catUpsertGo tag lab S.categories with
  | none => rw [hrec, h] at h1; simp at h1
  | some v =>
    obtain ⟨rows, i⟩ := v
    have hshape := upsertGo_some_shape _ _ _ S.categories rows i hrec
    constructor
    · simp only [upsertCategory, hrec]
      exact hshape.1
    · intro k
      have hany := hshape.2 (fun r => keyMatch k r.tag) (fun r _ => rfl)
      simp only [upsertCategory, hrec, hasCategory]
      exact hany

/-- Keys present in the category table survive the category upsert. -/
theorem upsertCategory_mono (S : PGState) (tag lab k : Option String)
    (h : hasCategory S k = true) :
    hasCategory (upsertCategory S tag lab).1 k = true := by
  cases hrec : catUpsertGo tag lab S.categories with
  | none =>
    simp only [upsertCategory, hrec, hasCategory, List.any_append] at h ⊢
    simp [h]
  | some v =>
    obtain ⟨rows, i⟩ := v
    have hshape := upsertGo_some_shape _ _ _ S.categories rows i hrec
    have hany := hshape.2 (fun r => keyMatch k r.tag) (fun r _ => rfl)
    simp only [upsertCategory, hrec, hasCategory] at h ⊢
    rw [hany]
    exact h

/-- After the category upsert, the probed (non-NULL) tag is present. -/
theorem upsertCategory_self (S : PGState) (tag lab : Option String)
    (h : tag.isSome = true) :
    hasCategory (upsertCategory S tag lab).1 tag = true := by
  cases hrec : catUpsertGo tag lab S.categories with
  | none =>
    simp only [upsertCategory, hrec, hasCategory, List.any_append]
    simp [keyMatch_self h]
  | some v =>
    obtain ⟨rows, i⟩ := v
    have h1 : (catUpsertGo tag lab S.categories).isSome = hasCategory S tag := by
      rw [catUpsertGo, upsertGo_isSome]
      rfl
    have hs : hasCategory S tag = true := by
      rw [← h1, hrec]
      rfl
    exact upsertCategory_mono S tag lab tag hs

/-- The location upsert touches only the `Location` table. -/
theorem upsertLocation_frame (S : PGState) (dn : Option String)
    (lat lng : Option Int) (area : List String) :
    (upsertLocation S dn lat lng area).1.companies = S.companies
    ∧ (upsertLocation S dn lat lng area).1.categories = S.categories
    ∧ (upsertLocation S dn lat lng area).1.jobs = S.jobs := by
  cases hrec : locUpsertGo dn lat S.locations with
  | none => simp [upsertLocation, hrec]
  | some v =>
    obtain ⟨rows, i⟩ := v
    simp [upsertLocation, hrec]

/-- On conflict the location upsert only rewrites the conflicting
row's `latitude`: the row count and the reachable display names are
unchanged. -/
theorem upsertLocation_absorbed (S : PGState) (dn : Option String)
    (lat lng : Option Int) (area : List String)
    (h : hasLocation S dn = true) :
    (upsertLocation S dn lat lng area).1.locations.length = S.locations.length
    ∧ ∀ k, hasLocation (upsertLocation S dn lat lng area).1 k = hasLocation S k := by
  have h1 : (locUpsertGo dn lat S.locations).isSome = hasLocation S dn := by
    rw [locUpsertGo, upsertGo_isSome]
    rfl
  cases hrec : locUpsertGo dn lat S.locations with
  | none => rw [hrec, h] at h1; simp at h1
  | some v =>
    obtain ⟨rows, i⟩ := v
    have hshape := upsertGo_some_shape _ _ _ S.locations rows i hrec
    constructor
    · simp only [upsertLocation, hrec]
      exact hshape.1
    · intro k
      have hany := hshape.2 (fun r => keyMatch k r.display_name) (fun r _ => rfl)
      simp only [upsertLocation, hrec, hasLocation]
      exact hany

/-- Keys present in the location table survive the location upsert. -/
theorem upsertLocation_mono (S : PGState) (dn k : Option String)
    (lat lng : Option Int) (area : List String)
    (h : hasLocation S k = true) :
    hasLocation (upsertLocation S dn lat lng area).1 k = true := by
  cases hrec : locUpsertGo dn lat S.locations with
  | none =>
    simp only [upsertLocation, hrec, hasLocation, List.any_append] at h ⊢
    simp [h]
  | some v =>
    obtain ⟨rows, i⟩ := v
    have hshape := upsertGo_some_shape _ _ _ S.locations rows i hrec
    have hany := hshape.2 (fun r => keyMatch k r.display_name) (fun r _ => rfl)
    simp only [upsertLocation, hrec, hasLocation] at h ⊢
    rw [hany]
    exact h

/-- After the location upsert, the probed (non-NULL) name is present. -/
theorem upsertLocation_self (S : PGState) (dn : Option String)
    (lat lng : Option Int) (area : List String)
    (h : dn.isSome = true) :
    hasLocation (upsertLocation S dn lat lng area).1 dn = true := by
  cases hrec : locUpsertGo dn lat S.locations with
  | none =>
    simp only [upsertLocation, hrec, hasLocation, List.any_append]
    simp [keyMatch_self h]
  | some v =>
    obtain ⟨rows, i⟩ := v
    have h1 : (locUpsertGo dn lat S.locations).isSome = hasLocation S dn := by
      rw [locUpsertGo, upsertGo_isSome]
      rfl
    have hs : hasLocation S dn = true := by
      rw [← h1, hrec]
      rfl
    exact upsertLocation_mono S dn dn lat lng area hs

/-- The job insert touches only the `Job` table. -/
theorem insertJob_frame (S : PGState) (row : JobRow) :
    (insertJob S row).1.companies = S.companies
    ∧ (insertJob S row).1.categories = S.categories
    ∧ (insertJob S row).1.locations = S.locations := by
  by_cases h : S.jobs.any (fun r => r.job_id == row.job_id)
  · simp [insertJob, h]
  · simp [insertJob, h]

/-- `ON CONFLICT (job_id) DO NOTHING`: inserting an already-present
external id leaves the state untouched and reports no insert. -/
theorem insertJob_absorbed (S : PGState) (row : JobRow)
    (h : hasJobId S row.job_id = true) : insertJob S row = (S, false) := by
  rw [insertJob, if_pos]
  exact h

/-- Job ids present before an insert remain present. -/
theorem insertJob_mono (S : PGState) (row : JobRow) (k : Nat)
    (h : hasJobId S k = true) : hasJobId (insertJob S row).1 k = true := by
  by_cases hc : S.jobs.any (fun r => r.job_id == row.job_id)
  · simpa [insertJob, hc] using h
  · simp only [insertJob, hc, if_neg, hasJobId, List.any_append] at h ⊢
    simp [h]

/-- After the job insert, the row's external id is present. -/
theorem insertJob_self (S : PGState) (row : JobRow) :
    hasJobId (insertJob S row).1 row.job_id = true := by
  by_cases hc : S.jobs.any (fun r => r.job_id == row.job_id)
  · simpa [insertJob, hc, hasJobId] using hc
  · simp [insertJob, hc, hasJobId, List.any_append]

/-- `keysPresent` facts survive the company upsert. -/
theorem upsertCompany_upholds (S : PGState) (nm : Option String) (j' : AdzJob)
    (h : keysPresent S j' = true) : keysPresent (upsertCompany S nm).1 j' = true := by
  obtain ⟨f1, f2, f3⟩ := upsertCompany_frame S nm
  simp only [keysPresent, Bool.and_eq_true] at h ⊢
  obtain ⟨⟨⟨hco, hca⟩, hlo⟩, hjo⟩ := h
  refine ⟨⟨⟨upsertCompany_mono S nm _ hco, ?_⟩, ?_⟩, ?_⟩
  · rw [hasCategory_ext f1]; exact hca
  · rw [hasLocation_ext f2]; exact hlo
  · rw [hasJobId_ext f3]; exact hjo

/-- `keysPresent` facts survive the category upsert. -/
theorem upsertCategory_upholds (S : PGState) (tag lab : Option String) (j' : AdzJob)
    (h : keysPresent S j' = true) : keysPresent (upsertCategory S tag lab).1 j' = true := by
  obtain ⟨f1, f2, f3⟩ := upsertCategory_frame S tag lab
  simp only [keysPresent, Bool.and_eq_true] at h ⊢
  obtain ⟨⟨⟨hco, hca⟩, hlo⟩, hjo⟩ := h
  refine ⟨⟨⟨?_, upsertCategory_mono S tag lab _ hca⟩, ?_⟩, ?_⟩
  · rw [hasCompany_ext f1]; exact hco
  · rw [hasLocation_ext f2]; exact hlo
  · rw [hasJobId_ext f3]; exact hjo

/-- `keysPresent` facts survive the location upsert. -/
theorem upsertLocation_upholds (S : PGState) (dn : Option String)
    (lat lng : Option Int) (area : List String) (j' : AdzJob)
    (h : keysPresent S j' = true) :
    keysPresent (upsertLocation S dn lat lng area).1 j' = true := by
  obtain ⟨f1, f2, f3⟩ := upsertLocation_frame S dn lat lng area
  simp only [keysPresent, Bool.and_eq_true] at h ⊢
  obtain ⟨⟨⟨hco, hca⟩, hlo⟩, hjo⟩ := h
  refine ⟨⟨⟨?_, ?_⟩, upsertLocation_mono S dn _ lat lng area hlo⟩, ?_⟩
  · rw [hasCompany_ext f1]; exact hco
  · rw [hasCategory_ext f2]; exact hca
  · rw [hasJobId_ext f3]; exact hjo

/-- `keysPresent` facts survive the job insert. -/
theorem insertJob_upholds (S : PGState) (row : JobRow) (j' : AdzJob)
    (h : keysPresent S j' = true) : keysPresent (insertJob S row).1 j' = true := by
  obtain ⟨f1, f2, f3⟩ := insertJob_frame S row
  simp only [keysPresent, Bool.and_eq_true] at h ⊢
  obtain ⟨⟨⟨hco, hca⟩, hlo⟩, hjo⟩ := h
  refine ⟨⟨⟨?_, ?_⟩, ?_⟩, insertJob_mono S row _ hjo⟩
  · rw [hasCompany_ext f1]; exact hco
  · rw [hasCategory_ext f2]; exact hca
  · rw [hasLocation_ext f3]; exact hlo

/-- Existing dimension keys and job ids all survive one job's
processing. -/
theorem processJob_upholds (S : PGState) (j j' : AdzJob)
    (h : keysPresent S j' = true) : keysPresent (processJob S j).1 j' = true := by
  dsimp only [processJob]
  exact insertJob_upholds _ _ _
    (upsertLocation_upholds _ _ _ _ _ _
      (upsertCategory_upholds _ _ _ _
        (upsertCompany_upholds _ _ _ h)))

/-- Processing a valid job leaves all four of its rows present. -/
theorem processJob_establishes (S : PGState) (j : AdzJob)
    (hj : validJob j = true) : keysPresent (processJob S j).1 j = true := by
  obtain ⟨⟨h1, h2⟩, h3⟩ :
      (j.company.isSome = true ∧ j.catTag.isSome = true)
        ∧ j.locDisplay.isSome = true := by
    simpa [validJob, Bool.and_eq_true] using hj
  dsimp only [processJob]
  set S1 := (upsertCompany S j.company).1 with hS1
  set S2 := (upsertCategory S1 j.catTag j.catLabel).1 with hS2
  set S3 := (upsertLocation S2 j.locDisplay j.latitude j.longitude j.area).1 with hS3
  have t1 : hasCompany S1 j.company = true := upsertCompany_self S j.company h1
  have t2 : hasCategory S2 j.catTag = true := upsertCategory_self S1 _ _ h2
  have t1b : hasCompany S2 j.company = true := by
    rw [hS2, hasCompany_ext (upsertCategory_frame S1 j.catTag j.catLabel).1]
    exact t1
  have t3 : hasLocation S3 j.locDisplay = true := upsertLocation_self S2 _ _ _ _ h3
  have t1c : hasCompany S3 j.company = true := by
    rw [hS3, hasCompany_ext (upsertLocation_frame S2 _ _ _ _).1]
    exact t1b
  have t2b : hasCategory S3 j.catTag = true := by
    rw [hS3, hasCategory_ext (upsertLocation_frame S2 _ _ _ _).2.1]
    exact t2
  simp only [keysPresent, Bool.and_eq_true]
  refine ⟨⟨⟨?_, ?_⟩, ?_⟩, ?_⟩
  · rw [hasCompany_ext (insertJob_frame S3 _).1]; exact t1c
  · rw [hasCategory_ext (insertJob_frame S3 _).2.1]; exact t2b
  · rw [hasLocation_ext (insertJob_frame S3 _).2.2]; exact t3
  · exact insertJob_self S3 _

/-- When all four rows of a job are already present, processing it
inserts nothing: no table grows, the job table stays equal, and the
insert counter is not incremented. -/
theorem processJob_absorbed (S : PGState) (j : AdzJob)
    (h : keysPresent S j = true) :
    (processJob S j).2 = false
    ∧ rowCounts (processJob S j).1 = rowCounts S
    ∧ (processJob S j).1.jobs = S.jobs := by
  simp only [keysPresent, Bool.and_eq_true] at h
  obtain ⟨⟨⟨hco, hca⟩, hlo⟩, hjo⟩ := h
  dsimp only [processJob]
  have e1 : (upsertCompany S j.company).1 = S := upsertCompany_absorbed S j.company hco
  rw [e1]
  have hca2 := upsertCategory_absorbed S j.catTag j.catLabel hca
  obtain ⟨g1, g2, g3⟩ := upsertCategory_frame S j.catTag j.catLabel
  set S2 := (upsertCategory S j.catTag j.catLabel).1 with hS2
  have hlo2 : hasLocation S2 j.locDisplay = true := by
    rw [hS2, hasLocation_ext g2]
    exact hlo
  have hlo3 := upsertLocation_absorbed S2 j.locDisplay j.latitude j.longitude j.area hlo2
  obtain ⟨l1, l2, l3⟩ := upsertLocation_frame S2 j.locDisplay j.latitude j.longitude j.area
  set S3 := (upsertLocation S2 j.locDisplay j.latitude j.longitude j.area).1 with hS3
  have hj3 : S3.jobs = S.jobs := by rw [hS3, l3, hS2, g3]
  have hid : hasJobId S3 j.id = true := by
    rw [hasJobId_ext hj3]
    exact hjo
  have hins := insertJob_absorbed S3
    { job_id := j.id, title := j.title, contract_type := j.contract_type,
      contract_time := j.contract_time, created := j.created,
      adref := j.adref, redirect_url := j.redirect_url,
      salary_min := j.salary_min, salary_max := j.salary_max,
      company_id := (upsertCompany S j.company).2,
      location_id := (upsertLocation S2 j.locDisplay j.latitude j.longitude j.area).2,
      category_id := (upsertCategory S j.catTag j.catLabel).2 } hid
  rw [hins]
  refine ⟨rfl, ?_, hj3⟩
  simp only [rowCounts, Prod.mk.injEq]
  refine ⟨?_, ?_, ?_, ?_⟩
  · rw [hS3, l1, hS2, g1]
  · rw [hS3, l2]
    exact hca2.1
  · rw [hlo3.1, hS2]
    exact congrArg List.length g2
  · exact congrArg List.length hj3

/-- With no exception raised, the insertion loop always returns. -/
theorem storeLoop_noFail_some :
    ∀ (L : List AdzJob) (S : PGState),
      ∃ S' n, storeLoop noFail S L = some (S', n) := by
  intro L
  induction L with
  | nil => intro S; exact ⟨S, 0, rfl⟩
  | cons j rest ih =>
    intro S
    obtain ⟨S', n, hrec⟩ := ih (processJob S j).1
    refine ⟨S', n + (if (processJob S j).2 then 1 else 0), ?_⟩
    simp [storeLoop, noFail, hrec]

/-- Keys present before the insertion loop are present after it. -/
theorem storeLoop_upholds :
    ∀ (L : List AdzJob) (S S' : PGState) (n : Nat),
      storeLoop noFail S L = some (S', n) →
      ∀ j', keysPresent S j' = true → keysPresent S' j' = true := by
  intro L
  induction L with
  | nil =>
    intro S S' n h j' hk
    simp only [storeLoop, Option.some.injEq, Prod.mk.injEq] at h
    rw [← h.1]
    exact hk
  | cons j rest ih =>
    intro S S' n h j' hk
    simp only [storeLoop, noFail, Bool.false_eq_true, if_false] at h
    cases hrec : storeLoop noFail (processJob S j).1 rest with
    | none => rw [hrec] at h; simp at h
    | some v =>
      obtain ⟨S'', n'⟩ := v
      rw [hrec] at h
      simp only [Option.some.injEq, Prod.mk.injEq] at h
      rw [← h.1]
      exact ih _ _ _ hrec j' (processJob_upholds S j j' hk)

/-- After a successful insertion loop, every valid job of the batch has
all four of its rows present in the final state. -/
theorem storeLoop_establishes :
    ∀ (L : List AdzJob) (S S' : PGState) (n : Nat),
      storeLoop noFail S L = some (S', n) →
      ∀ j ∈ L, validJob j = true → keysPresent S' j = true := by
  intro L
  induction L with
  | nil => intro S S' n _ j hj; simp at hj
  | cons j0 rest ih =>
    intro S S' n h j hj hvj
    simp only [storeLoop, noFail, Bool.false_eq_true, if_false] at h
    cases hrec : storeLoop noFail (processJob S j0).1 rest with
    | none => rw [hrec] at h; simp at h
    | some v =>
      obtain ⟨S'', n'⟩ := v
      rw [hrec] at h
      simp only [Option.some.injEq, Prod.mk.injEq] at h
      rcases List.mem_cons.mp hj with rfl | hmem
      · rw [← h.1]
        exact storeLoop_upholds rest _ _ _ hrec j (processJob_establishes S j hvj)
      · rw [← h.1]
        exact ih _ _ _ hrec j hmem hvj

/-- Running the insertion loop over a batch whose rows are all already
present inserts nothing: the count is 0 and no table grows. -/
theorem storeLoop_absorbed :
    ∀ (L : List AdzJob) (S : PGState),
      (∀ j ∈ L, keysPresent S j = true) →
      ∃ S', storeLoop noFail S L = some (S', 0)
        ∧ rowCounts S' = rowCounts S ∧ S'.jobs = S.jobs := by
  intro L
  induction L with
  | nil => intro S _; exact ⟨S, rfl, rfl, rfl⟩
  | cons j rest ih =>
    intro S h
    obtain ⟨h2, hjrow, hjobs⟩ := processJob_absorbed S j (h j (by simp))
    have hrest : ∀ j' ∈ rest, keysPresent (processJob S j).1 j' = true :=
      fun j' hj' => processJob_upholds S j j' (h j' (by simp [hj']))
    obtain ⟨S', hrec, hc, hj⟩ := ih (processJob S j).1 hrest
    refine ⟨S', ?_, ?_, ?_⟩
    · simp [storeLoop, noFail, hrec, h2]
    · rw [hc, hjrow]
    · rw [hj, hjobs]

/-- Documents present before a `store_jobs_nosql` loop survive it
verbatim: `update_one` with only `$setOnInsert` never modifies a
matched document, and inserts only append. -/
theorem mongoLoop_mem (f : AdzJob → Bool) :
    ∀ (L : List AdzJob) (M : MongoDocs) (n : Nat) (d : Nat × AdzJob),
      d ∈ M → d ∈ (mongoLoop f M n L).1 := by
  intro L
  induction L with
  | nil => intro M n d h; exact h
  | cons j rest ih =>
    intro M n d h
    by_cases hf : f j
    · simpa [mongoLoop, hf] using h
    · by_cases hm : M.any (fun p => p.1 == j.id)
      · have := ih M n d h
        simpa [mongoLoop, hf, hm] using this
      · have := ih (M ++ [(j.id, j)]) (n+1) d (List.mem_append_left _ h)
        simpa [mongoLoop, hf, hm] using this

/-- An id reachable before the loop is reachable after it. -/
theorem mongoLoop_any (f : AdzJob → Bool) :
    ∀ (L : List AdzJob) (M : MongoDocs) (n : Nat) (id : Nat),
      M.any (fun p => p.1 == id) = true →
      (mongoLoop f M n L).1.any (fun p => p.1 == id) = true := by
  intro L M n id h
  rw [List.any_eq_true] at h ⊢
  obtain ⟨d, hd, hp⟩ := h
  exact ⟨d, mongoLoop_mem f L M n d hd, hp⟩

/-- After a raise-free loop, every batch id has a document. -/
theorem mongoLoop_establishes :
    ∀ (L : List AdzJob) (M : MongoDocs) (n : Nat) (j : AdzJob), j ∈ L →
      (mongoLoop noFail M n L).1.any (fun p => p.1 == j.id) = true := by
  intro L
  induction L with
  | nil => intro M n j h; simp at h
  | cons j' rest ih =>
    intro M n j h
    rcases List.mem_cons.mp h with rfl | hmem
    · by_cases hm : M.any (fun p => p.1 == j.id)
      · have := mongoLoop_any noFail rest M n j.id hm
        simpa [mongoLoop, noFail, hm] using this
      · have hin : (M ++ [(j.id, j)]).any (fun p => p.1 == j.id) = true := by
          simp [List.any_append]
        have := mongoLoop_any noFail rest (M ++ [(j.id, j)]) (n+1) j.id hin
        simpa [mongoLoop, noFail, hm] using this
    · by_cases hm : M.any (fun p => p.1 == j'.id)
      · have := ih M n j hmem
        simpa [mongoLoop, noFail, hm] using this
      · have := ih (M ++ [(j'.id, j')]) (n+1) j hmem
        simpa [mongoLoop, noFail, hm] using this

/-- A raise-free loop over a batch whose ids are all present is the
identity and upserts nothing. -/
theorem mongoLoop_absorbed :
    ∀ (L : List AdzJob) (M : MongoDocs) (n : Nat),
      (∀ j ∈ L, M.any (fun p => p.1 == j.id) = true) →
      mongoLoop noFail M n L = (M, some n) := by
  intro L
  induction L with
  | nil => intro M n _; rfl
  | cons j rest ih =>
    intro M n h
    have hm := h j (by simp)
    have hrec := ih M n (fun j' hj' => h j' (by simp [hj']))
    simp [mongoLoop, noFail, hm, hrec]

/-- C3: re-running both stores on the same valid batch is idempotent.
The second relational run returns count 0, grows no table, and leaves
the job table equal; the second document run returns count 0 with the
collection unchanged; and no document ever present is overwritten or
removed by a run. -/
theorem store_jobs_idempotent (S : PGState) (M : MongoDocs) (L : List AdzJob)
    (hv : ∀ j ∈ L, validJob j = true) :
    ((store_jobs_sql noFail (store_jobs_sql noFail S L).state L).result = some 0
      ∧ rowCounts (store_jobs_sql noFail (store_jobs_sql noFail S L).state L).state
          = rowCounts (store_jobs_sql noFail S L).state
      ∧ (store_jobs_sql noFail (store_jobs_sql noFail S L).state L).state.jobs
          = (store_jobs_sql noFail S L).state.jobs)
    ∧ (store_jobs_nosql false false noFail
          (store_jobs_nosql false false noFail M L).state L
        = { state := (store_jobs_nosql false false noFail M L).state,
            result := some 0, opened := true, closed := true })
    ∧ ∀ d ∈ M, d ∈ (store_jobs_nosql false false noFail M L).state := by
  refine ⟨?_, ?_, ?_⟩
  · cases L with
    | nil => exact ⟨rfl, rfl, rfl⟩
    | cons j0 rest =>
      obtain ⟨S1, n1, hrun1⟩ :=
        storeLoop_noFail_some (j0 :: rest) { S with tablesCreated := true }
      have hstate1 : (store_jobs_sql noFail S (j0 :: rest)).state = S1 := by
        simp [store_jobs_sql, hrun1]
      have hkeys : ∀ j ∈ (j0 :: rest), keysPresent S1 j = true :=
        fun j hj => storeLoop_establishes _ _ _ _ hrun1 j hj (hv j hj)
      have hkeys2 : ∀ j ∈ (j0 :: rest),
          keysPresent { S1 with tablesCreated := true } j = true :=
        fun j hj => hkeys j hj
      obtain ⟨S2, hrun2, hcounts, hjobs⟩ :=
        storeLoop_absorbed (j0 :: rest) { S1 with tablesCreated := true } hkeys2
      rw [hstate1]
      refine ⟨?_, ?_, ?_⟩
      · simp [store_jobs_sql, hrun2]
      · simp only [store_jobs_sql, List.isEmpty_cons, if_false, hrun2]
        exact hcounts
      · simp only [store_jobs_sql, List.isEmpty_cons, if_false, hrun2]
        exact hjobs
  · have hM1 : (store_jobs_nosql false false noFail M L).state
        = (mongoLoop noFail M 0 L).1 := by
      simp [store_jobs_nosql]
    have hani : ∀ j ∈ L,
        (store_jobs_nosql false false noFail M L).state.any
          (fun p => p.1 == j.id) = true := by
      intro j hj
      rw [hM1]
      exact mongoLoop_establishes L M 0 j hj
    have habs := mongoLoop_absorbed L
      (store_jobs_nosql false false noFail M L).state 0 hani
    rw [hM1] at habs
    simp [store_jobs_nosql, habs]
  · intro d hd
    have hM1 : (store_jobs_nosql false false noFail M L).state
        = (mongoLoop noFail M 0 L).1 := by
      simp [store_jobs_nosql]
    rw [hM1]
    exact mongoLoop_mem noFail L M 0 d hd

/-- Witness for `store_jobs_idempotent` at a concrete input. -/
theorem store_jobs_idempotent_witness :
    (∀ j ∈ [fullJob 7 5], validJob j = true)
    ∧ (((store_jobs_sql noFail (store_jobs_sql noFail pgEmpty [fullJob 7 5]).state
            [fullJob 7 5]).result = some 0
        ∧ rowCounts (store_jobs_sql noFail
              (store_jobs_sql noFail pgEmpty [fullJob 7 5]).state [fullJob 7 5]).state
            = rowCounts (store_jobs_sql noFail pgEmpty [fullJob 7 5]).state
        ∧ (store_jobs_sql noFail
              (store_jobs_sql noFail pgEmpty [fullJob 7 5]).state [fullJob 7 5]).state.jobs
            = (store_jobs_sql noFail pgEmpty [fullJob 7 5]).state.jobs)
      ∧ (store_jobs_nosql false false noFail
            (store_jobs_nosql false false noFail [] [fullJob 7 5]).state [fullJob 7 5]
          = { state := (store_jobs_nosql false false noFail [] [fullJob 7 5]).state,
              result := some 0, opened := true, closed := true })
      ∧ ∀ d ∈ ([] : MongoDocs),
          d ∈ (store_jobs_nosql false false noFail [] [fullJob 7 5]).state) :=
  ⟨by decide, store_jobs_idempotent pgEmpty [] [fullJob 7 5] (by decide)⟩

/-! ### Feature-preparation contract (C7) -/

/-- Taking first components of a keyed map image recovers the keys. -/
theorem map_fst_keyed (cols : List String) (f : String → Cell) :
    (cols.map (fun c => (c, f c))).map Prod.fst = cols := by
  induction cols with
  | nil => rfl
  | cons c rest ih => simp [ih]

/-- The aligned output has exactly the saved columns in saved order. -/
theorem alignStep_cols (md : ModelData) (X : Row) :
    (alignStep md X).map Prod.fst = md.feature_columns := by
  unfold alignStep
  exact map_fst_keyed _ _

/-- Looking up a column of a keyed `map` image yields its image cell. -/
theorem lookupCol_map_self (cols : List String) (f : String → Cell)
    (c : String) (h : c ∈ cols) :
    lookupCol (cols.map (fun c => (c, f c))) c = some (f c) := by
  induction cols with
  | nil => simp at h
  | cons c' rest ih =>
    by_cases hc : c' = c
    · subst hc
      simp [lookupCol, List.find?]
    · have hmem : c ∈ rest := by
        rcases List.mem_cons.mp h with h1 | h1
        · exact absurd h1.symm hc
        · exact h1
      have hb : (c' == c) = false := by simp [hc]
      simp only [List.map_cons, lookupCol, List.find?, hb]
      exact ih hmem

/-- Lookups resolved in the left part of an append stay there. -/
theorem lookupCol_append_left (X Y : Row) (c : String)
    (h : hasCol X c = true) : lookupCol (X ++ Y) c = lookupCol X c := by
  induction X with
  | nil => simp [hasCol] at h
  | cons p rest ih =>
    by_cases hp : p.1 == c
    · simp [lookupCol, List.find?, hp]
    · have h' : hasCol rest c = true := by
        simpa [hasCol, List.any_cons, hp] using h
      simp only [List.cons_append, lookupCol, List.find?, hp]
      exact ih h'

/-- Appending a fresh column makes it reachable. -/
theorem lookupCol_append_right (X : Row) (c : String) (v : Cell)
    (h : hasCol X c = false) : lookupCol (X ++ [(c, v)]) c = some v := by
  induction X with
  | nil => simp [lookupCol, List.find?]
  | cons p rest ih =>
    have hp : (p.1 == c) = false := by
      by_cases hb : p.1 == c
      · exfalso
        simp [hasCol, List.any_cons, hb] at h
      · simpa using hb
    have h' : hasCol rest c = false := by
      simpa [hasCol, List.any_cons, hp] using h
    simp only [List.cons_append, lookupCol, List.find?, hp]
    exact ih h'

/-- The zero-filling fold only ever appends columns. -/
theorem foldAdd_append (cols : List String) : ∀ X : Row,
    ∃ Z, cols.foldl
        (fun X c => if hasCol X c then X else X ++ [(c, Cell.num 0)]) X
      = X ++ Z := by
  induction cols with
  | nil => intro X; exact ⟨[], by simp⟩
  | cons c rest ih =>
    intro X
    by_cases h : hasCol X c
    · obtain ⟨Z, hZ⟩ := ih X
      exact ⟨Z, by simp [List.foldl_cons, h, hZ]⟩
    · obtain ⟨Z, hZ⟩ := ih (X ++ [(c, Cell.num 0)])
      refine ⟨(c, Cell.num 0) :: Z, ?_⟩
      simp [List.foldl_cons, h, hZ]

/-- A saved column absent from the row is zero-filled by the fold. -/
theorem foldAdd_lookup_zero (cols : List String) : ∀ X : Row, ∀ c,
    c ∈ cols → hasCol X c = false →
    lookupCol (cols.foldl
        (fun X c => if hasCol X c then X else X ++ [(c, Cell.num 0)]) X) c
      = some (Cell.num 0) := by
  induction cols with
  | nil => intro X c h; simp at h
  | cons c' rest ih =>
    intro X c hmem habs
    by_cases he : c' = c
    · subst he
      rw [List.foldl_cons, if_neg (by simp [habs])]
      obtain ⟨Z, hZ⟩ := foldAdd_append rest (X ++ [(c', Cell.num 0)])
      rw [hZ, lookupCol_append_left _ _ _ (by simp [hasCol, List.any_append])]
      exact lookupCol_append_right X c' (Cell.num 0) habs
    · have hmem' : c ∈ rest := by
        rcases List.mem_cons.mp hmem with h1 | h1
        · exact absurd h1.symm he
        · exact h1
      rw [List.foldl_cons]
      by_cases hX : hasCol X c'
      · rw [if_pos hX]
        exact ih X c hmem' habs
      · rw [if_neg hX]
        refine ih _ c hmem' ?_
        have hb : (c' == c) = false := by simp [he]
        simp only [hasCol, List.any_append, List.any_cons, List.any_nil,
          Bool.or_false]
        rw [show (X.any fun p => p.1 == c) = hasCol X c from rfl, habs, hb]
        rfl

/-- Alignment writes an exact zero into every saved column the encoded
row does not provide. -/
theorem alignStep_zero (md : ModelData) (X : Row) (c : String)
    (hmem : c ∈ md.feature_columns) (habs : hasCol X c = false) :
    lookupCol (alignStep md X) c = some (Cell.num 0) := by
  unfold alignStep
  rw [lookupCol_map_self md.feature_columns _ c hmem,
    foldAdd_lookup_zero md.feature_columns X c hmem habs]
  rfl

/-- First-match lookup of a rewritten column yields the new value. -/
theorem lookupCol_mapSet (X : Row) (c : String) (v : Cell)
    (h : hasCol X c = true) :
    lookupCol (X.map (fun p => if p.1 == c then (p.1, v) else p)) c
      = some v := by
  induction X with
  | nil => simp [hasCol] at h
  | cons p rest ih =>
    by_cases hp : p.1 == c
    · simp [lookupCol, List.find?, hp]
    · have h' : hasCol rest c = true := by
        simpa [hasCol, List.any_cons, hp] using h
      have hhead : (if (p.1 == c) = true then (p.1, v) else p) = p := if_neg hp
      simp only [List.map_cons]
      rw [hhead]
      simp only [lookupCol, List.find?, hp]
      exact ih h'

/-- `X[col] = value` makes `X[col]` read back `value`. -/
theorem lookupCol_setCol (X : Row) (c : String) (v : Cell) :
    lookupCol (setCol X c v) c = some v := by
  unfold setCol
  by_cases h : hasCol X c
  · rw [if_pos h]
    exact lookupCol_mapSet X c v h
  · rw [if_neg h]
    exact lookupCol_append_right X c v (by simpa using h)

/-- Filtering out a differently-named column does not change a lookup. -/
theorem lookupCol_filter_ne (X : Row) (c d : String)
    (hne : (c == d) = false) :
    lookupCol (X.filter (fun p => !(p.1 == d))) c = lookupCol X c := by
  induction X with
  | nil => rfl
  | cons p rest ih =>
    by_cases hp : p.1 == c
    · have hpc : p.1 = c := eq_of_beq hp
      have hpd : (p.1 == d) = false := by
        rw [hpc]
        exact hne
      simp [List.filter_cons, hpd, lookupCol, List.find?, hp]
    · have hps : (p.1 == c) = false := by simpa using hp
      by_cases hpd : p.1 == d
      · simp only [List.filter_cons, hpd, Bool.not_true, Bool.false_eq_true,
          if_false]
        rw [ih]
        simp [lookupCol, List.find?, hps]
      · have hpds : (p.1 == d) = false := by simpa using hpd
        simp only [List.filter_cons, hpds, Bool.not_false, if_true]
        simp only [lookupCol, List.find?, hps]
        exact ih

/-- An unknown title encodes to the sentinel -1 (and does not raise). -/
theorem titleStep_unknown (md : ModelData) (X : Row) (v : Cell) (X3 : Row)
    (hv : lookupCol X "title" = some v) (hnc : cellStr v ∉ md.classes)
    (h3 : titleStep md X = some X3) :
    lookupCol X3 "title_encoded" = some (Cell.num (-1)) := by
  unfold titleStep at h3
  rw [hv] at h3
  simp only [if_neg hnc, Option.some.injEq] at h3
  rw [← h3, lookupCol_filter_ne _ _ _ (by decide)]
  exact lookupCol_setCol X "title_encoded" (Cell.num (-1))

/-- C7: for a single inference row whose encoding steps succeed, the
prepared features are exactly the persisted bundle's saved column list
in its saved order; any saved column the encoded row lacks reads back
an exact 0; and a title outside the saved label-encoder classes is
encoded to the sentinel -1 instead of raising. -/
theorem prepare_features_contract (row : Row) (md : ModelData) (X2 X3 : Row)
    (h1 : dummiesStep (fillStep md row) = some X2)
    (h2 : titleStep md X2 = some X3) :
    prepare_features row md = some (alignStep md X3)
    ∧ (alignStep md X3).map Prod.fst = md.feature_columns
    ∧ (∀ c ∈ md.feature_columns, hasCol X3 c = false →
        lookupCol (alignStep md X3) c = some (Cell.num 0))
    ∧ (∀ v, lookupCol X2 "title" = some v → cellStr v ∉ md.classes →
        lookupCol X3 "title_encoded" = some (Cell.num (-1))) := by
  refine ⟨by simp [prepare_features, h1, h2], alignStep_cols md X3, ?_, ?_⟩
  · intro c hc habs
    exact alignStep_zero md X3 c hc habs
  · intro v hv hnc
    exact titleStep_unknown md X2 v X3 hv hnc h2

/-! ### Years-extraction characterization (C8) -/

/-- The head surviving a `dropWhile` fails the predicate. -/
theorem dropWhile_head_false {α : Type} (p : α → Bool) :
    ∀ l : List α, ∀ x, (l.dropWhile p).head? = some x → p x = false := by
  intro l
  induction l with
  | nil => intro x hx; simp at hx
  | cons c l' ih =>
    intro x hx
    by_cases hc : p c
    · rw [List.dropWhile_cons_of_pos hc] at hx
      exact ih x hx
    · rw [List.dropWhile_cons_of_neg hc] at hx
      obtain rfl : c = x := by simpa using hx
      simpa using hc

/-- A list split at the first predicate failure is exactly what
`takeWhile`/`dropWhile` recover. -/
theorem split_sections {α : Type} (p : α → Bool) :
    ∀ ds post : List α, (∀ c ∈ ds, p c = true) →
      (∀ x, post.head? = some x → p x = false) →
      (ds ++ post).takeWhile p = ds ∧ (ds ++ post).dropWhile p = post := by
  intro ds
  induction ds with
  | nil =>
    intro post _ hpost
    cases post with
    | nil => exact ⟨rfl, rfl⟩
    | cons x t =>
      have hx : p x = false := hpost x rfl
      constructor
      · simp [List.takeWhile_cons, hx]
      · simp [List.dropWhile_cons, hx]
  | cons d ds' ih =>
    intro post hds hpost
    have hd : p d = true := hds d (by simp)
    obtain ⟨h1, h2⟩ := ih post (fun c hc => hds c (by simp [hc])) hpost
    constructor
    · rw [List.cons_append, List.takeWhile_cons_of_pos hd, h1]
    · rw [List.cons_append, List.dropWhile_cons_of_pos hd, h2]

/-- `dropWhile` over an append stops inside the left part as soon as
that part contains a predicate failure. -/
theorem dropWhile_append_break {α : Type} (p : α → Bool) :
    ∀ (pre tail : List α) (x : α), x ∈ pre → p x = false →
      (pre ++ tail).dropWhile p = pre.dropWhile p ++ tail := by
  intro pre
  induction pre with
  | nil => intro tail x hx; simp at hx
  | cons a pre' ih =>
    intro tail x hx hpx
    by_cases ha : p a
    · have hxa : x ∈ pre' := by
        rcases List.mem_cons.mp hx with rfl | h
        · rw [hpx] at ha; exact absurd ha (by simp)
        · exact h
      rw [List.cons_append, List.dropWhile_cons_of_pos ha,
        List.dropWhile_cons_of_pos ha]
      exact ih tail x hxa hpx
    · rw [List.cons_append, List.dropWhile_cons_of_neg ha,
        List.dropWhile_cons_of_neg ha, List.cons_append]

/-- Appending a failing element commutes with `dropWhile`. -/
theorem dropWhile_concat_false {α : Type} (p : α → Bool) (c : α)
    (hc : p c = false) :
    ∀ q : List α, (q ++ [c]).dropWhile p = q.dropWhile p ++ [c] := by
  intro q
  induction q with
  | nil => simp [List.dropWhile_cons, hc]
  | cons a q' ih =>
    by_cases ha : p a
    · rw [List.cons_append, List.dropWhile_cons_of_pos ha,
        List.dropWhile_cons_of_pos ha]
      exact ih
    · rw [List.cons_append, List.dropWhile_cons_of_neg ha,
        List.dropWhile_cons_of_neg ha, List.cons_append]

/-- `getLast?` skips a cons onto a non-empty list. -/
theorem getLast?_cons_ne {α : Type} (c : α) (l : List α) (h : l ≠ []) :
    (c :: l).getLast? = l.getLast? := by
  cases l with
  | nil => exact absurd rfl h
  | cons a t => simp [List.getLast?_cons_cons]

/-- A digit cannot begin the `\+?\s*(?:years?|jahr)` continuation. -/
theorem yearCont_head_not_digit (post : List Char) (h : yearCont post = true) :
    ∀ x, post.head? = some x → isDigitChar x = false := by
  intro x hx
  cases post with
  | nil => simp at hx
  | cons y t =>
    have hxy : x = y := by
      have : y = x := by simpa using hx
      exact this.symm
    subst hxy
    by_contra hd
    have hd' : isDigitChar x = true := by simpa using hd
    simp only [isDigitChar, Bool.or_eq_true, decide_eq_true_eq] at hd'
    rcases hd' with ((((((((rfl | rfl) | rfl) | rfl) | rfl) | rfl) | rfl) | rfl) | rfl) | rfl <;>
      simp [yearCont, wsChar, List.dropWhile_cons] at h

/-- `dropWhile` never lengthens a list. -/
theorem dropWhile_length_le {α : Type} (p : α → Bool) :
    ∀ l : List α, (l.dropWhile p).length ≤ l.length := by
  intro l
  induction l with
  | nil => simp
  | cons a t ih =>
    by_cases h : p a
    · rw [List.dropWhile_cons_of_pos h]
      exact le_trans ih (by simp)
    · rw [List.dropWhile_cons_of_neg h]

/-- Soundness of the scan: every capture is a pattern occurrence. -/
theorem yearScan_sound :
    ∀ fuel, ∀ cs : List Char, cs.length ≤ fuel →
      ∀ n, n ∈ yearScan fuel cs → isYearPattern cs n := by
  intro fuel
  induction fuel with
  | zero => intro cs _ n hn; simp [yearScan] at hn
  | succ fuel ih =>
    intro cs hlen n hn
    cases cs with
    | nil => simp [yearScan] at hn
    | cons c cs' =>
      by_cases hd : isDigitChar c
      · simp only [yearScan, hd, if_true, List.mem_append] at hn
        rcases hn with hn1 | hn2
        · by_cases hyc : yearCont (cs'.dropWhile isDigitChar)
          · rw [if_pos hyc] at hn1
            obtain rfl : n = digitsToNat (c :: cs'.takeWhile isDigitChar) := by
              simpa using hn1
            refine ⟨[], c :: cs'.takeWhile isDigitChar, cs'.dropWhile isDigitChar,
              ?_, by simp, ?_, ?_, hyc, rfl⟩
            · simp [List.takeWhile_append_dropWhile]
            · intro x hx
              rcases List.mem_cons.mp hx with rfl | hx'
              · exact hd
              · exact List.mem_takeWhile_imp hx'
            · intro x hx
              simp at hx
          · rw [if_neg hyc] at hn1
            simp at hn1
        · have hle : (cs'.dropWhile isDigitChar).length ≤ fuel :=
            le_trans (dropWhile_length_le _ _) (Nat.succ_le_succ_iff.mp hlen)
          obtain ⟨pre', ds', post', hcs, hne, hdig, hlast, hyc, hneq⟩ :=
            ih _ hle n hn2
          have hpre' : pre' ≠ [] := by
            intro h0
            subst h0
            cases ds' with
            | nil => exact hne rfl
            | cons d0 ds'' =>
              have hhead : (cs'.dropWhile isDigitChar).head? = some d0 := by
                rw [hcs]
                rfl
              have hfalse := dropWhile_head_false isDigitChar cs' d0 hhead
              rw [hdig d0 (by simp)] at hfalse
              exact absurd hfalse (by simp)
          refine ⟨(c :: cs'.takeWhile isDigitChar) ++ pre', ds', post',
            ?_, hne, hdig, ?_, hyc, hneq⟩
          · have h1 : c :: cs'
                = (c :: cs'.takeWhile isDigitChar) ++ cs'.dropWhile isDigitChar := by
              simp [List.takeWhile_append_dropWhile]
            rw [h1, hcs]
            simp [List.append_assoc]
          · intro x hx
            rw [List.getLast?_append_of_ne_nil _ hpre'] at hx
            exact hlast x hx
      · simp only [yearScan, hd, if_false] at hn
        have hle : cs'.length ≤ fuel := Nat.succ_le_succ_iff.mp hlen
        obtain ⟨pre', ds', post', hcs, hne, hdig, hlast, hyc, hneq⟩ :=
          ih cs' hle n hn
        refine ⟨c :: pre', ds', post', by rw [hcs]; simp, hne,
          hdig, ?_, hyc, hneq⟩
        intro x hx
        cases hp : pre' with
        | nil =>
          subst hp
          have : c = x := by simpa using hx
          subst this
          simpa using hd
        | cons a t =>
          subst hp
          rw [getLast?_cons_ne c _ (by simp)] at hx
          exact hlast x hx

/-- Completeness of the scan: every pattern occurrence is captured. -/
theorem yearScan_complete :
    ∀ fuel, ∀ cs : List Char, cs.length ≤ fuel →
      ∀ n, isYearPattern cs n → n ∈ yearScan fuel cs := by
  intro fuel
  induction fuel with
  | zero =>
    intro cs hlen n hp
    obtain ⟨pre, ds, post, hcs, hne, _, _, _, _⟩ := hp
    have hnil : cs = [] := List.length_eq_zero.mp (Nat.le_zero.mp hlen)
    subst hnil
    cases ds with
    | nil => exact absurd rfl hne
    | cons d ds' =>
      have hl := congrArg List.length hcs
      simp only [List.length_nil, List.length_append, List.length_cons] at hl
      omega
  | succ fuel ih =>
    intro cs hlen n hp
    obtain ⟨pre, ds, post, hcs, hne, hdig, hlast, hyc, hneq⟩ := hp
    cases cs with
    | nil =>
      cases ds with
      | nil => exact absurd rfl hne
      | cons d ds' =>
        have hl := congrArg List.length hcs
        simp only [List.length_nil, List.length_append, List.length_cons] at hl
        omega
    | cons c cs' =>
      by_cases hd : isDigitChar c
      · by_cases hpre : pre = []
        · subst hpre
          rw [List.nil_append] at hcs
          obtain ⟨htw, hdw⟩ := split_sections isDigitChar ds post hdig
            (yearCont_head_not_digit post hyc)
          rw [← hcs] at htw hdw
          have htw' : c :: cs'.takeWhile isDigitChar = ds := by
            rw [← htw, List.takeWhile_cons_of_pos hd]
          have hdw' : cs'.dropWhile isDigitChar = post := by
            rw [← hdw]
            conv_rhs => rw [List.dropWhile_cons_of_pos hd]
          simp only [yearScan, hd, if_true, List.mem_append]
          left
          rw [hdw', if_pos hyc, htw']
          simp [hneq]
        · obtain ⟨q, c', hq⟩ : ∃ q c', pre = q ++ [c'] := by
            rcases List.eq_nil_or_concat pre with h0 | ⟨q, c', hqc⟩
            · exact absurd h0 hpre
            · exact ⟨q, c', by simpa [List.concat_eq_append] using hqc⟩
          have hc' : isDigitChar c' = false := by
            refine hlast c' ?_
            rw [hq]
            exact List.getLast?_concat q
          have hmem : c' ∈ pre := by
            rw [hq]
            exact List.mem_append_right q (by simp)
          have hrest : cs'.dropWhile isDigitChar
              = (q.dropWhile isDigitChar ++ [c']) ++ (ds ++ post) := by
            have h1 : cs'.dropWhile isDigitChar
                = (c :: cs').dropWhile isDigitChar := by
              rw [List.dropWhile_cons_of_pos hd]
            rw [h1, hcs, List.append_assoc,
              dropWhile_append_break isDigitChar pre (ds ++ post) c' hmem hc',
              hq, dropWhile_concat_false isDigitChar c' hc' q]
          have hpat : isYearPattern (cs'.dropWhile isDigitChar) n := by
            refine ⟨q.dropWhile isDigitChar ++ [c'], ds, post, ?_, hne, hdig, ?_, hyc, hneq⟩
            · simp [hrest, List.append_assoc]
            · intro x hx
              rw [List.getLast?_concat] at hx
              obtain rfl : c' = x := by simpa using hx
              exact hc'
          have hle : (cs'.dropWhile isDigitChar).length ≤ fuel :=
            le_trans (dropWhile_length_le _ _) (Nat.succ_le_succ_iff.mp hlen)
          simp only [yearScan, hd, if_true, List.mem_append]
          right
          exact ih _ hle n hpat
      · cases hpre : pre with
        | nil =>
          subst hpre
          rw [List.nil_append] at hcs
          cases ds with
          | nil => exact absurd rfl hne
          | cons d ds' =>
            have : c = d := by
              have := congrArg List.head? hcs
              simpa using this
            subst this
            exact absurd (hdig c (by simp)) (by simpa using hd)
        | cons p0 pre'' =>
          subst hpre
          have hc : c = p0 ∧ cs' = pre'' ++ ds ++ post := by
            constructor
            · have := congrArg List.head? hcs
              simpa using this
            · have := congrArg List.tail hcs
              simpa using this
          obtain ⟨rfl, hcs'⟩ := hc
          have hpat : isYearPattern cs' n := by
            refine ⟨pre'', ds, post, hcs', hne, hdig, ?_, hyc, hneq⟩
            intro x hx
            cases hp2 : pre'' with
            | nil =>
              subst hp2
              simp at hx
            | cons a t =>
              subst hp2
              refine hlast x ?_
              rw [getLast?_cons_ne _ _ (by simp)]
              exact hx
          have hle : cs'.length ≤ fuel := Nat.succ_le_succ_iff.mp hlen
          simp only [yearScan, hd, if_false]
          exact ih cs' hle n hpat

/-- Every element is bounded by the fold of `max`. -/
theorem foldr_max_le (l : List Nat) : ∀ n ∈ l, n ≤ l.foldr max 0 := by
  induction l with
  | nil => intro n hn; simp at hn
  | cons a t ih =>
    intro n hn
    rcases List.mem_cons.mp hn with rfl | hm
    · exact le_max_left _ _
    · exact le_trans (ih n hm) (le_max_right _ _)

/-- A non-zero fold of `max` is attained by some element. -/
theorem foldr_max_mem (l : List Nat) : l.foldr max 0 ≠ 0 → l.foldr max 0 ∈ l := by
  induction l with
  | nil => intro h; simp at h
  | cons a t ih =>
    intro h
    rcases Nat.le_total a (t.foldr max 0) with hle | hge
    · rw [List.foldr_cons, Nat.max_eq_right hle] at h ⊢
      exact List.mem_cons_of_mem a (ih h)
    · rw [List.foldr_cons, Nat.max_eq_left hge] at h ⊢
      exact List.mem_cons_self a t

/-- C8: `extract_years` returns 0 on a missing (NaN) text; on a
present text every `"<N>+ years"/"<N> jahre"` occurrence in the
lower-cased text is bounded by the returned value, and a non-zero
returned value is itself such an occurrence (hence the result is the
maximum occurrence, and 0 when there is none); in particular
`extract_years "5+ years experience" = 5` and
`extract_years "senior role" = 0`. -/
theorem extract_years_spec (s : String) :
    extract_years none = 0
    ∧ (∀ n, isYearPattern (s.toList.map Char.toLower) n →
        n ≤ extract_years (some s))
    ∧ (extract_years (some s) ≠ 0 →
        isYearPattern (s.toList.map Char.toLower) (extract_years (some s)))
    ∧ extract_years (some "5+ years experience") = 5
    ∧ extract_years (some "senior role") = 0 := by
  refine ⟨rfl, ?_, ?_, by decide, by decide⟩
  · intro n hp
    exact foldr_max_le _ n (yearScan_complete _ _ (le_refl _) n hp)
  · intro h
    exact yearScan_sound _ _ (le_refl _) _ (foldr_max_mem _ h)

/-- C9: the query endpoint rejects a requested column list with a 400
client error exactly when it contains a column outside the allow-list,
the error names exactly the invalid requested columns, and a request
whose columns all belong to the allow-list passes this validation. -/
theorem get_jobs_validation (cols : List String) :
    (get_jobs_validate cols = GetJobsCheck.rejected 400 (missing_columns cols)
      ↔ ∃ c ∈ cols, c ∉ existing_columns)
    ∧ (get_jobs_validate cols = GetJobsCheck.accepted
      ↔ ∀ c ∈ cols, c ∈ existing_columns)
    ∧ (∀ c, c ∈ missing_columns cols ↔ c ∈ cols ∧ c ∉ existing_columns) := by
  have hmem : ∀ c, c ∈ missing_columns cols ↔ c ∈ cols ∧ c ∉ existing_columns := by
    intro c
    simp [missing_columns, List.mem_filter]
  have hkey : (missing_columns cols).isEmpty = true
      ↔ ∀ c ∈ cols, c ∈ existing_columns := by
    rw [List.isEmpty_iff]
    constructor
    · intro h c hc
      by_contra hnc
      have hin : c ∈ missing_columns cols := (hmem c).mpr ⟨hc, hnc⟩
      rw [h] at hin
      simp at hin
    · intro h
      rw [List.eq_nil_iff_forall_not_mem]
      intro c hc
      obtain ⟨h1, h2⟩ := (hmem c).mp hc
      exact h2 (h c h1)
  refine ⟨?_, ?_, hmem⟩
  · by_cases h : (missing_columns cols).isEmpty
    · rw [get_jobs_validate, if_pos h]
      constructor
      · intro habs
        exact absurd habs (by simp)
      · rintro ⟨c, hc, hnc⟩
        exact absurd (hkey.mp h c hc) hnc
    · rw [get_jobs_validate, if_neg h]
      constructor
      · intro _
        by_contra hno
        push_neg at hno
        exact h (hkey.mpr hno)
      · intro _
        rfl
  · by_cases h : (missing_columns cols).isEmpty
    · rw [get_jobs_validate, if_pos h]
      exact ⟨fun _ => hkey.mp h, fun _ => rfl⟩
    · rw [get_jobs_validate, if_neg h]
      constructor
      · intro habs
        exact absurd habs (by simp)
      · intro hall
        exact absurd (hkey.mpr hall) h

/-- Witness for `prepare_features_contract` at a concrete input. -/
theorem prepare_features_contract_witness :
    dummiesStep (fillStep mdW rowW) = some rowWdummies
    ∧ titleStep mdW rowWdummies = some rowWencoded
    ∧ (prepare_features rowW mdW = some (alignStep mdW rowWencoded)
      ∧ (alignStep mdW rowWencoded).map Prod.fst = mdW.feature_columns
      ∧ (∀ c ∈ mdW.feature_columns, hasCol rowWencoded c = false →
          lookupCol (alignStep mdW rowWencoded) c = some (Cell.num 0))
      ∧ (∀ v, lookupCol rowWdummies "title" = some v → cellStr v ∉ mdW.classes →
          lookupCol rowWencoded "title_encoded" = some (Cell.num (-1)))) :=
  ⟨by decide, by decide,
    prepare_features_contract rowW mdW rowWdummies rowWencoded
      (by decide) (by decide)⟩

end JobMarket
